import Mathlib

/-!
# Hepi: template resolution, response decoding, state store and request batches

A shallow embedding of `src/main.go` (and of the registry contract of
`src/generators.go`).  Go strings are Lean strings, scanned as character lists;
a dynamic `interface{}` value is a `Value`; a Go `map[string]T` is an
association list read with `List.lookup`; the process environment, the
generator registry, the random source, the JSON codec, the state file and the
HTTP call are explicit parameters.
-/

namespace Hepi

/-! ## Text helpers (`strings`, `strconv`, `regexp`) -/

/-- Go `strings.TrimFunc` over characters: drop the leading and the trailing run
of characters satisfying `cut`. -/
def trimFunc (cut : Char → Bool) (cs : List Char) : List Char :=
  ((cs.dropWhile cut).reverse.dropWhile cut).reverse

/-- Go `strings.Trim(s, " ")`: only the space character is cut. -/
def trimSpaces (s : String) : String :=
  ⟨trimFunc (fun c => c == ' ') s.data⟩

/-- Go `unicode.IsSpace`. -/
def isSpace (c : Char) : Bool :=
  c == '\t' || c == '\n' || c == '\x0b' || c == '\x0c' || c == '\r' || c == ' '
    || c.toNat == 0x85 || c.toNat == 0xA0 || c.toNat == 0x1680
    || (0x2000 ≤ c.toNat && c.toNat ≤ 0x200A)
    || c.toNat == 0x2028 || c.toNat == 0x2029 || c.toNat == 0x202F
    || c.toNat == 0x205F || c.toNat == 0x3000

/-- Go `strings.TrimSpace`. -/
def trimSpace (s : String) : String :=
  ⟨trimFunc isSpace s.data⟩

/-- Go `strings.Split(s, sep)` for a one-character separator, on characters.
The result always has at least one piece. -/
def splitChars (sep : Char) : List Char → List (List Char)
  | [] => [[]]
  | c :: cs =>
    if c = sep then [] :: splitChars sep cs
    else
      match splitChars sep cs with
      | [] => [[c]]
      | p :: ps => (c :: p) :: ps

/-- Go `strings.Split(s, sep)` for a one-character separator. -/
def split (s : String) (sep : Char) : List String :=
  (splitChars sep s.data).map String.mk

/-- Go `strings.HasPrefix`. -/
def hasPrefix (s p : String) : Bool :=
  p.data.isPrefixOf s.data

/-- Go `strings.HasSuffix`. -/
def hasSuffix (s p : String) : Bool :=
  p.data.isSuffixOf s.data

/-- Go slice expression `s[i:j]` on a string of one-byte characters. -/
def slice (s : String) (i j : Nat) : String :=
  ⟨(s.data.take j).drop i⟩

/-- One step of reading a decimal number: the next digit is appended to the
value read so far; another character spoils the run. -/
def digitStep (acc : Option Nat) (c : Char) : Option Nat :=
  match acc with
  | none => none
  | some n => if '0' ≤ c ∧ c ≤ '9' then some (10 * n + (c.toNat - 48)) else none

/-- Value of a run of decimal digits, most significant first; `none` when the
run is empty or holds another character. -/
def digitsValue : List Char → Option Nat
  | [] => none
  | cs => cs.foldl digitStep (some 0)

/-- Largest Go `int` on a 64-bit platform. -/
def maxInt : Nat := 2 ^ 63 - 1

/-- Go `strconv.Atoi`: an optional sign, then at least one decimal digit, the
value within the range of `int`; `none` stands for the error result. -/
def atoi (s : String) : Option Int :=
  match s.data with
  | '+' :: ds =>
    match digitsValue ds with
    | some n => if n ≤ maxInt then some (n : Int) else none
    | none => none
  | '-' :: ds =>
    match digitsValue ds with
    | some n => if n ≤ maxInt + 1 then some (-(n : Int)) else none
    | none => none
  | ds =>
    match digitsValue ds with
    | some n => if n ≤ maxInt then some (n : Int) else none
    | none => none

/-! ## Dynamic values -/

/-- Drop the trailing zero digits of a digit run. -/
def stripZeros (ds : List Char) : List Char :=
  (ds.reverse.dropWhile (fun c => c == '0')).reverse

/-- A Go `float64`, known by what `strconv` derives from it before it formats
with precision -1 (`decimalSlice`): the sign, the shortest run of decimal digits
that reads back as the same number, and the position `dp` of the decimal point,
the number being `0.d1...dn × 10^dp`; zero has no digits.  The values that are
not numbers are kept apart. -/
inductive Float64 where
  | finite (neg : Bool) (digits : List Char) (dp : Int)
  | inf (neg : Bool)
  | nan

/-- The `float64` of a natural number below `2^53`: such a number is held
exactly, and its shortest digits are its own digits without the trailing
zeros. -/
def Float64.ofNat (n : Nat) : Float64 :=
  if n = 0 then .finite false [] 0
  else .finite false (stripZeros (Nat.toDigits 10 n)) ((Nat.toDigits 10 n).length : Nat)

instance (n : Nat) : OfNat Float64 n := ⟨Float64.ofNat n⟩

/-- A Go `interface{}` value as produced by decoding JSON or YAML.  `int` is a
Go integer (YAML integers), `float` a `float64` (JSON numbers, YAML floats),
`obj` a `map[string]interface{}`, `arr` a `[]interface{}`; `gmap` is a
`map[interface{}]interface{}`, which `yaml.v3` gives for a mapping with a key
that is not a string, its entries in the order in which `fmt` prints them;
`time` is a `time.Time` (a YAML timestamp), known by its text form. -/
inductive Value where
  | null
  | bool (b : Bool)
  | int (i : Int)
  | float (f : Float64)
  | str (s : String)
  | arr (xs : List Value)
  | obj (kvs : List (String × Value))
  | gmap (entries : List (Value × Value))
  | time (text : String)

/-- The exponent of the `%e` form: a sign and at least two digits. -/
def fmtExp (e : Int) : String :=
  (if e < 0 then "-" else "+") ++ (if e.natAbs < 10 then "0" else "")
    ++ String.mk (Nat.toDigits 10 e.natAbs)

/-- The `%e` form of `strconv`, with all the digits: `d.ddde±XX`. -/
def fmtE (neg : Bool) (d : List Char) (dp : Int) : String :=
  (if neg then "-" else "") ++ String.mk (if d = [] then ['0'] else d.take 1)
    ++ (if d.length > 1 then "." ++ String.mk (d.drop 1) else "")
    ++ "e" ++ fmtExp (if d = [] then 0 else dp - 1)

/-- The `%f` form of `strconv`, with all the digits and no more. -/
def fmtF (neg : Bool) (d : List Char) (dp : Int) : String :=
  let intPart := if dp > 0 then d.take dp.toNat ++ List.replicate (dp.toNat - d.length) '0' else ['0']
  let frac := if dp < d.length then List.replicate (-dp).toNat '0' ++ d.drop dp.toNat else []
  (if neg then "-" else "") ++ String.mk intPart
    ++ (if frac = [] then "" else "." ++ String.mk frac)

/-- Go `%v` of a `float64` (`strconv.FormatFloat(f, 'g', -1, 64)`): the `%e`
form when the decimal exponent `dp - 1` is below -4 or at least 6, the `%f`
form otherwise. -/
def fmtFloat : Float64 → String
  | .finite neg d dp => if dp - 1 < -4 ∨ dp - 1 ≥ 6 then fmtE neg d dp else fmtF neg d dp
  | .inf neg => if neg then "-Inf" else "+Inf"
  | .nan => "NaN"

/-- Go string comparison `a < b`, on characters. -/
def ltChars : List Char → List Char → Bool
  | _, [] => false
  | [], _ :: _ => true
  | a :: as, b :: bs => a.toNat < b.toNat || (a.toNat == b.toNat && ltChars as bs)

/-- Insert a rendered map entry in key order. -/
def insertEntry (e : String × String) : List (String × String) → List (String × String)
  | [] => [e]
  | x :: xs => if ltChars e.1.data x.1.data then e :: x :: xs else x :: insertEntry e xs

/-- Go `internal/fmtsort`: rendered map entries sorted by key. -/
def sortEntries (es : List (String × String)) : List (String × String) :=
  es.foldr insertEntry []

mutual
/-- Go `fmt.Sprintf("%v", v)`, the default text form of a value. -/
def fmtV : Value → String
  | .null => "<nil>"
  | .bool b => if b then "true" else "false"
  | .int i => toString i
  | .float f => fmtFloat f
  | .str s => s
  | .arr xs => "[" ++ " ".intercalate (fmtElems xs) ++ "]"
  | .obj kvs =>
    "map[" ++ " ".intercalate ((sortEntries (fmtFields kvs)).map (fun e => e.1 ++ ":" ++ e.2)) ++ "]"
  | .gmap entries => "map[" ++ " ".intercalate (fmtEntries entries) ++ "]"
  | .time text => text
/-- Text forms of the elements of a slice. -/
def fmtElems : List Value → List String
  | [] => []
  | x :: xs => fmtV x :: fmtElems xs
/-- Keys and text forms of the entries of a map. -/
def fmtFields : List (String × Value) → List (String × String)
  | [] => []
  | (k, v) :: kvs => (k, fmtV v) :: fmtFields kvs
/-- Text forms `key:value` of the entries of a general map. -/
def fmtEntries : List (Value × Value) → List String
  | [] => []
  | (k, v) :: kvs => (fmtV k ++ ":" ++ fmtV v) :: fmtEntries kvs
end

/-- The sentinel of a failed path segment, `fmt.Sprintf("{{MISSING:%s}}", part)`. -/
def missing (part : String) : String :=
  "\x7b\x7bMISSING:" ++ part ++ "\x7d\x7d"

/-- Go `m[part]` on a `map[string]interface{}`: the zero value `nil` when the
key is absent. -/
def mapIndex (m : List (String × Value)) (part : String) : Value :=
  (m.lookup part).getD Value.null

/-- Source `getValueFromMap(data, path)`. -/
def getValueFromMap (data : Value) : List String → String
  | [] => fmtV data
  | part :: rest =>
    match data with
    | .obj m => getValueFromMap (mapIndex m part) rest
    | .arr s =>
      match atoi part with
      | some idx =>
        if 0 ≤ idx ∧ idx.toNat < s.length then getValueFromMap (s.getD idx.toNat Value.null) rest
        else missing part
      | none => missing part
    | _ => missing part

/-! ## Placeholder scanning (`regexp.ReplaceAllStringFunc`) -/

/-- The tail of a match of `(.*?)cc` after the opening pair: the shortest run
of characters other than a newline that is followed by the closing pair `cc`.
Returns the run and the text after the closing pair. -/
def scanClose (c : Char) : List Char → Option (List Char × List Char)
  | [] => none
  | x :: xs =>
    if x = c ∧ xs.head? = some c then some ([], xs.tail)
    else if x = '\n' then none
    else
      match scanClose c xs with
      | some (inner, rest) => some (x :: inner, rest)
      | none => none

/-- Go `regexp.ReplaceAllStringFunc` for the pattern `oo(.*?)cc` (an opening
pair, a lazy run without newline, a closing pair): every leftmost
non-overlapping match is handed to `repl` and replaced by its result; the
state `σ` of the replacement function is threaded from left to right.  The
first argument bounds the number of steps; the length of the text suffices. -/
def replaceAllAux {σ : Type} (o c : Char) (repl : String → σ → String × σ) :
    Nat → List Char → σ → List Char × σ
  | 0, cs, g => (cs, g)
  | _ + 1, [], g => ([], g)
  | fuel + 1, x :: xs, g =>
    if x = o ∧ xs.head? = some o then
      match scanClose c xs.tail with
      | some (inner, rest) =>
        let r := repl (String.mk (o :: o :: (inner ++ [c, c]))) g
        let t := replaceAllAux o c repl fuel rest r.2
        (r.1.data ++ t.1, t.2)
      | none =>
        let t := replaceAllAux o c repl fuel xs g
        (x :: t.1, t.2)
    else
      let t := replaceAllAux o c repl fuel xs g
      (x :: t.1, t.2)

/-- Go `re.ReplaceAllStringFunc(s, repl)` for the pattern `oo(.*?)cc`. -/
def replaceAllStringFunc {σ : Type} (o c : Char) (repl : String → σ → String × σ)
    (s : String) (g : σ) : String × σ :=
  let t := replaceAllAux o c repl s.length s.data g
  (String.mk t.1, t.2)

/-! ## The runner -/

/-- What the process reads from outside the program: `os.LookupEnv`, the global
`Generators` registry of `generators.go` (a generator is a nullary function
drawing on the random source, whose state is `σ`), and `rand.Intn`. -/
structure Sys (σ : Type) where
  LookupEnv : String → Option String
  Generators : String → Option (σ → String × σ)
  Intn : Nat → σ → Nat × σ

/-- Source `Request`. -/
structure Request where
  Method : String
  URL : String
  Description : String
  Headers : List (String × String)
  Params : Option (List (String × Value))
  JSON : Option (List (String × Value))
  Form : Option (List (String × Value))
  Files : Option (List (String × String))

/-- Source `Config`.  `Requests` is the YAML node: `none` when it is not a
mapping node, otherwise its entries in document order, each with the outcome of
`valNode.Decode(&req)` (the error text on failure). -/
structure Config where
  Requests : Option (List (String × Except String Request))
  Groups : List (String × List String)

/-- Source `Runner` (the HTTP client and the display flag are left out). -/
structure Runner where
  Config : Config
  EnvName : String
  Environment : List (String × Value)
  State : List (String × Value)

/-- The expression `strings.Trim(match[2:len(match)-2], " ")` of both closures
of `Runner.substitute`: the text between the delimiters of a match, without
its leading and trailing spaces. -/
def matchKey (m : String) : String :=
  trimSpaces (slice m 2 (m.length - 2))

/-- The registry part of the generator closure: the generator registered under
the tag, else the one registered under `random_` + tag, else the match itself. -/
def lookupGenerator {σ : Type} (sys : Sys σ) (tag m : String) (g : σ) : String × σ :=
  match sys.Generators tag with
  | some gen => gen g
  | none =>
    match sys.Generators ("random_" ++ tag) with
    | some gen => gen g
    | none => (m, g)

/-- The replacement function of the generator pass of `Runner.substitute`
(the closure given to `genRegex.ReplaceAllStringFunc`).  `rand.Intn` returns an
index below its argument; an index out of range reads as the empty string. -/
def substituteGen {σ : Type} (sys : Sys σ) (m : String) (g : σ) : String × σ :=
  let tag := matchKey m
  if hasPrefix tag "oneof:" then
    let parts := split (slice tag 6 tag.length) ','
    if parts.length > 0 then
      let r := sys.Intn parts.length g
      (trimSpace (parts.getD r.1 ""), r.2)
    else lookupGenerator sys tag m g
  else lookupGenerator sys tag m g

/-- The replacement function of the variable pass of `Runner.substitute`
(the closure given to `re.ReplaceAllStringFunc`). -/
def substituteVar {σ : Type} (sys : Sys σ) (r : Runner) (m : String) : String :=
  let key := matchKey m
  match sys.LookupEnv key with
  | some val => val
  | none =>
    match r.Environment.lookup key with
    | some val => fmtV val
    | none =>
      let parts := split key '.'
      if parts.length > 1 then
        match r.State.lookup (parts.headD "") with
        | some res => getValueFromMap res parts.tail
        | none => m
      else m

/-- The generator pass of `Runner.substitute`. -/
def substituteGenerators {σ : Type} (sys : Sys σ) (s : String) (g : σ) : String × σ :=
  replaceAllStringFunc '[' ']' (substituteGen sys) s g

/-- The variable pass of `Runner.substitute`. -/
def substituteVariables {σ : Type} (sys : Sys σ) (r : Runner) (s : String) : String :=
  (replaceAllStringFunc '\x7b' '\x7d' (fun m (u : Unit) => (substituteVar sys r m, u)) s ()).1

/-- Source `Runner.substitute`: the generator pass, then the variable pass on
its result.  The random state is threaded through the generator pass. -/
def substitute {σ : Type} (sys : Sys σ) (r : Runner) (s : String) (g : σ) : String × σ :=
  let t := substituteGenerators sys s g
  (substituteVariables sys r t.1, t.2)

mutual
/-- The type switch `switch val := v.(type)` that the loops of
`Runner.substituteMap` and `Runner.substituteSlice` both apply to the value at
hand, written once: a string is substituted, a `map[string]interface{}` and a
`[]interface{}` are handed to the two functions, and the `default` branch
passes anything else on as it is: `nil`, booleans, numbers, times, and also a
`map[interface{}]interface{}` with all that it holds. -/
def substituteValue {σ : Type} (sys : Sys σ) (r : Runner) : Value → σ → Value × σ
  | .str val, g => let t := substitute sys r val g; (.str t.1, t.2)
  | .obj val, g => let t := substituteMap sys r val g; (.obj t.1, t.2)
  | .arr val, g => let t := substituteSlice sys r val g; (.arr t.1, t.2)
  | other, g => (other, g)
/-- Source `Runner.substituteMap`.  The entries are visited in the order of the
association list (Go visits a map in an unspecified order). -/
def substituteMap {σ : Type} (sys : Sys σ) (r : Runner) :
    List (String × Value) → σ → List (String × Value) × σ
  | [], g => ([], g)
  | (k, v) :: rest, g =>
    let e := substituteValue sys r v g
    let t := substituteMap sys r rest e.2
    ((k, e.1) :: t.1, t.2)
/-- Source `Runner.substituteSlice`. -/
def substituteSlice {σ : Type} (sys : Sys σ) (r : Runner) :
    List Value → σ → List Value × σ
  | [], g => ([], g)
  | v :: rest, g =>
    let e := substituteValue sys r v g
    let t := substituteSlice sys r rest e.2
    (e.1 :: t.1, t.2)
end

/-! ## Response decoder -/

/-- The test of `decodeRecursive` on a string leaf: its trimmed content starts
and ends with a matching bracket pair. -/
def looksLikeJSON (v : String) : Bool :=
  let trimmed := trimSpace v
  (hasPrefix trimmed "\x7b" && hasSuffix trimmed "\x7d")
    || (hasPrefix trimmed "[" && hasSuffix trimmed "]")

/-- Apply a fallible function to every element; `none` as soon as one fails. -/
def mapOpt {α β : Type} (f : α → Option β) : List α → Option (List β)
  | [] => some []
  | x :: xs =>
    match f x, mapOpt f xs with
    | some y, some ys => some (y :: ys)
    | _, _ => none

/-- Source `decodeRecursive`.  `unmarshal` is `json.Unmarshal` into an
`interface{}` (`none` for an error).  The first argument bounds the depth of
the recursion; `none` is returned only when it is used up. -/
def decodeRecursive (unmarshal : String → Option Value) : Nat → Value → Option Value
  | 0, _ => none
  | fuel + 1, .obj v =>
    (mapOpt (fun kv => (decodeRecursive unmarshal fuel kv.2).map (fun d => (kv.1, d))) v).map .obj
  | fuel + 1, .arr v => (mapOpt (decodeRecursive unmarshal fuel) v).map .arr
  | fuel + 1, .str v =>
    if looksLikeJSON v then
      match unmarshal v with
      | some decoded => decodeRecursive unmarshal fuel decoded
      | none => some (.str v)
    else some (.str v)
  | _ + 1, other => some other

/-- The decoding step of `executeRequest`: `json.Unmarshal` of the response
body, then `decodeRecursive`; `none` when the body is not JSON. -/
def decodeBody (unmarshal : String → Option Value) (fuel : Nat) (body : String) : Option Value :=
  match unmarshal body with
  | some result => decodeRecursive unmarshal fuel result
  | none => none

/-! ## State store -/

/-- Go map assignment `m[k] = v`. -/
def mapSet {α : Type} (m : List (String × α)) (k : String) (v : α) : List (String × α) :=
  match m with
  | [] => [(k, v)]
  | (k1, v1) :: rest => if k1 = k then (k, v) :: rest else (k1, v1) :: mapSet rest k v

/-- The JSON codec of the state file over file contents of type `β`:
`Unmarshal data` is the value of `allStates` after
`json.Unmarshal(data, &allStates)` on an empty map (the error is ignored by the
callers), and `MarshalIndent` is `json.MarshalIndent(allStates, "", "  ")`
(`none` for an error). -/
structure Codec (β : Type) where
  Unmarshal : β → List (String × List (String × Value))
  MarshalIndent : List (String × List (String × Value)) → Option β

/-- The state file: what `os.ReadFile` returns (`none` for an error, e.g. a
missing file) and whether `os.WriteFile` succeeds. -/
structure Disk (β : Type) where
  content : Option β
  writable : Bool

/-- Source `loadState(envName, stateFile)`. -/
def loadState {β : Type} (codec : Codec β) (envName : String) (disk : Disk β) :
    List (String × Value) :=
  match disk.content with
  | none => []
  | some data =>
    match (codec.Unmarshal data).lookup envName with
    | some res => res
    | none => []

/-- Source `Runner.saveState`: the state file after the call. -/
def saveState {β : Type} (codec : Codec β) (r : Runner) (disk : Disk β) : Disk β :=
  let allStates :=
    match disk.content with
    | some data => codec.Unmarshal data
    | none => []
  let allStates := mapSet allStates r.EnvName r.State
  match codec.MarshalIndent allStates with
  | none => disk
  | some output => if disk.writable then { disk with content := some output } else disk

/-! ## Request batches -/

/-- The errors returned by `ExecuteRequests` and `ExecuteGroup`.  The names of
`requestsNotFound` stand for the set of missing names and are listed in string
order; the code joins them in the order of a range over a Go map, which is not
specified. -/
inductive RunError where
  | groupNotFound (name : String)
  | requestsNotMapping
  | decodeFailed (name msg : String)
  | requestFailed (msg : String)
  | requestsNotFound (names : List String)
  deriving DecidableEq

/-- Source `Runner.executeRequest`, taken as given: from the request, the
runner and the outside world `ω` (network, state file, console) to the value of
`r.State` and the world after the call, and the error returned, if any. -/
abbrev Exec (ω : Type) :=
  String → Request → Runner → ω → (List (String × Value) × ω) × Option String

/-- The result of a batch: runner and world afterwards, the names that
`executeRequest` was called with, in call order, and the error returned. -/
structure Outcome (ω : Type) where
  runner : Runner
  world : ω
  executed : List String
  err : Option RunError

/-- The names of a list without repetition (the keys of the `filter` map). -/
def uniq : List String → List String
  | [] => []
  | x :: xs => if x ∈ xs then uniq xs else x :: uniq xs

/-- Insert a name in its place by Go string order. -/
def insertName (n : String) : List String → List String
  | [] => [n]
  | x :: xs => if ltChars n.data x.data then n :: x :: xs else x :: insertName n xs

/-- A set of names listed in Go string order. -/
def sortNames (ns : List String) : List String :=
  ns.foldr insertName []

/-- The loop of `ExecuteRequests` over the entries of the requests node.
Returns the outcome and the `foundRequests` set. -/
def executeLoop {ω : Type} (exec : Exec ω) (filter : List String) :
    List (String × Except String Request) → Runner → ω → Outcome ω × List String
  | [], r, w => (⟨r, w, [], none⟩, [])
  | (name, node) :: rest, r, w =>
    if name ∈ filter then
      match node with
      | .error msg => (⟨r, w, [], some (.decodeFailed name msg)⟩, [name])
      | .ok req =>
        match exec name req r w with
        | (sw, some e) =>
          (⟨{ r with State := sw.1 }, sw.2, [name], some (.requestFailed e)⟩, [name])
        | (sw, none) =>
          let t := executeLoop exec filter rest { r with State := sw.1 } sw.2
          ({ t.1 with executed := name :: t.1.executed }, name :: t.2)
    else executeLoop exec filter rest r w

/-- Source `Runner.ExecuteRequests`.  The names that were not found are
collected by ranging over the `filter` map, an order that Go leaves open; they
are listed here in string order. -/
def ExecuteRequests {ω : Type} (exec : Exec ω) (r : Runner) (reqNames : String) (w : ω) :
    Outcome ω :=
  let filter := (split reqNames ',').map trimSpace
  match r.Config.Requests with
  | none => ⟨r, w, [], some .requestsNotMapping⟩
  | some content =>
    let t := executeLoop exec filter content r w
    match t.1.err with
    | some _ => t.1
    | none =>
      let missing := sortNames ((uniq filter).filter (fun req => !(t.2.contains req)))
      if missing.length > 0 then { t.1 with err := some (.requestsNotFound missing) }
      else t.1

/-- The loop of `ExecuteGroup` over the names of the group. -/
def executeGroupLoop {ω : Type} (exec : Exec ω) : List String → Runner → ω → Outcome ω
  | [], r, w => ⟨r, w, [], none⟩
  | reqName :: rest, r, w =>
    let o := ExecuteRequests exec r reqName w
    match o.err with
    | some _ => o
    | none =>
      let t := executeGroupLoop exec rest o.runner o.world
      { t with executed := o.executed ++ t.executed }

/-- Source `Runner.ExecuteGroup`. -/
def ExecuteGroup {ω : Type} (exec : Exec ω) (r : Runner) (groupName : String) (w : ω) :
    Outcome ω :=
  match r.Config.Groups.lookup groupName with
  | none => ⟨r, w, [], some (.groupNotFound groupName)⟩
  | some group => executeGroupLoop exec group r w

/-- A sample process environment: one OS variable, two generators with fixed
output, and a random source that always draws the last index. -/
def sampleSys : Sys Nat where
  LookupEnv := fun k => if k = "HOME" then some "/root" else none
  Generators := fun k =>
    if k = "email" then some (fun g => ("a@b.c", g + 1))
    else if k = "random_tag" then some (fun g => ("T", g + 1))
    else none
  Intn := fun n g => (n - 1, g + 1)

/-- A sample request. -/
def sampleRequest : Request where
  Method := "GET"
  URL := "http://\x7b\x7bhost\x7d\x7d/"
  Description := ""
  Headers := []
  Params := none
  JSON := none
  Form := none
  Files := none

/-- A sample configuration: request `a` is declared before request `b`; the
group `all` names them in the opposite order and the group `broken` names a
request that is not declared. -/
def sampleConfig : Config where
  Requests := some [("a", .ok sampleRequest), ("b", .ok sampleRequest)]
  Groups := [("all", ["b", "a"]), ("broken", ["a", "nosuch"])]

/-- A sample `executeRequest`: every call succeeds, leaves the state as it is,
and is recorded in the world, which is the log of the network calls made. -/
def sampleExec : Exec (List String) :=
  fun name _ r w => ((r.State, w ++ [name]), none)

/-- A sample runner. -/
def sampleRunner : Runner where
  Config := sampleConfig
  EnvName := "dev"
  Environment := [("host", .str "example.org"), ("port", .int 8080)]
  State := [("login", .obj [("token", .str "abc123")]),
    ("list", .obj [("items", .arr [.str "x", .float 1000000])])]

/-! ## Definitions that follow the words of the specification -/

/-- The text of a dotted path: its segments joined by dots. -/
def dotted : List String → String
  | [] => ""
  | [s] => s
  | s :: t :: rest => s ++ "." ++ dotted (t :: rest)

/-- A key that is read back as written from between the delimiters of a
variable token: no closing brace, opening square bracket or newline in it, and
no space at either end. -/
def plainKey (key : String) : Prop :=
  (∀ x ∈ key.data, x ≠ '[' ∧ x ≠ '\x7d' ∧ x ≠ '\n') ∧ trimSpaces key = key

/-- A sequence index as the specification has it: a run of decimal digits
whose value is a non-negative `int`. -/
def decimalIndex (seg : String) : Option Nat :=
  match digitsValue seg.data with
  | some i => if i ≤ maxInt then some i else none
  | none => none

/-- One segment resolves through a value: a key present in a mapping, or a
decimal index below the length of a sequence. -/
def resolveStep (v : Value) (seg : String) : Option Value :=
  match v with
  | .obj m => m.lookup seg
  | .arr s =>
    match decimalIndex seg with
    | some i => s[i]?
    | none => none
  | _ => none

/-- Every segment of a path resolves in turn; the value reached. -/
def resolvePath (v : Value) : List String → Option Value
  | [] => some v
  | seg :: rest =>
    match resolveStep v seg with
    | some x => resolvePath x rest
    | none => none

mutual
/-- A size of a value that bounds the text needed to write it as JSON: one for
every node, and the length of every string leaf. -/
def Value.weight : Value → Nat
  | .str s => s.length + 1
  | .arr xs => weightList xs + 1
  | .obj kvs => weightFields kvs + 1
  | _ => 1
/-- Total weight of the elements of a sequence. -/
def weightList : List Value → Nat
  | [] => 0
  | x :: xs => x.weight + weightList xs
/-- Total weight of the values of a mapping. -/
def weightFields : List (String × Value) → Nat
  | [] => 0
  | (_, v) :: kvs => v.weight + weightFields kvs
end

/-- A string leaf is decodable: its trimmed content starts and ends with a
matching bracket pair and the nested JSON parse of the leaf succeeds. -/
def decodable (unmarshal : String → Option Value) (s : String) : Prop :=
  looksLikeJSON s = true ∧ (unmarshal s).isSome = true

mutual
/-- No string leaf of the value is decodable. -/
def fullyDecoded (unmarshal : String → Option Value) : Value → Prop
  | .str s => ¬ decodable unmarshal s
  | .arr xs => fullyDecodedList unmarshal xs
  | .obj kvs => fullyDecodedFields unmarshal kvs
  | _ => True
/-- No string leaf of the elements is decodable. -/
def fullyDecodedList (unmarshal : String → Option Value) : List Value → Prop
  | [] => True
  | x :: xs => fullyDecoded unmarshal x ∧ fullyDecodedList unmarshal xs
/-- No string leaf of the values of the entries is decodable. -/
def fullyDecodedFields (unmarshal : String → Option Value) : List (String × Value) → Prop
  | [] => True
  | (_, v) :: kvs => fullyDecoded unmarshal v ∧ fullyDecodedFields unmarshal kvs
end

mutual
/-- The decoding rule of the specification, as a relation between a parsed
value and its decoded form: a decodable string leaf is replaced by the decoded
form of its parse; any other string leaf and every other scalar is left as it
is; sequences and mappings are decoded element by element, keys kept. -/
inductive DecodesTo (unmarshal : String → Option Value) : Value → Value → Prop
  | null : DecodesTo unmarshal .null .null
  | bool (b : Bool) : DecodesTo unmarshal (.bool b) (.bool b)
  | int (i : Int) : DecodesTo unmarshal (.int i) (.int i)
  | float (f : Float64) : DecodesTo unmarshal (.float f) (.float f)
  | gmap (entries : List (Value × Value)) : DecodesTo unmarshal (.gmap entries) (.gmap entries)
  | time (text : String) : DecodesTo unmarshal (.time text) (.time text)
  | keep (s : String) : ¬ decodable unmarshal s → DecodesTo unmarshal (.str s) (.str s)
  | parsed (s : String) (d r : Value) : looksLikeJSON s = true → unmarshal s = some d →
      DecodesTo unmarshal d r → DecodesTo unmarshal (.str s) r
  | arr (xs rs : List Value) : DecodesToList unmarshal xs rs →
      DecodesTo unmarshal (.arr xs) (.arr rs)
  | obj (kvs rs : List (String × Value)) : DecodesToFields unmarshal kvs rs →
      DecodesTo unmarshal (.obj kvs) (.obj rs)
/-- The decoding rule, element by element. -/
inductive DecodesToList (unmarshal : String → Option Value) : List Value → List Value → Prop
  | nil : DecodesToList unmarshal [] []
  | cons (x r : Value) (xs rs : List Value) : DecodesTo unmarshal x r →
      DecodesToList unmarshal xs rs → DecodesToList unmarshal (x :: xs) (r :: rs)
/-- The decoding rule, entry by entry, every key kept. -/
inductive DecodesToFields (unmarshal : String → Option Value) :
    List (String × Value) → List (String × Value) → Prop
  | nil : DecodesToFields unmarshal [] []
  | cons (k : String) (x r : Value) (kvs rs : List (String × Value)) :
      DecodesTo unmarshal x r → DecodesToFields unmarshal kvs rs →
      DecodesToFields unmarshal ((k, x) :: kvs) ((k, r) :: rs)
end

/-- The response body of the recursive-decode scenario: an object whose field
`a` holds the text of a second object. -/
def sampleBody : String := "\x7b\"a\":\"\x7b\\\"b\\\":1\x7d\"\x7d"

/-- The text held by field `a` of `sampleBody`. -/
def sampleInner : String := "\x7b\"b\":1\x7d"

/-- What `json.Unmarshal` returns on the two texts of the scenario; every other
text is rejected. -/
def sampleUnmarshal (s : String) : Option Value :=
  if s = sampleBody then some (.obj [("a", .str sampleInner)])
  else if s = sampleInner then some (.obj [("b", .float 1)])
  else none

/-- What `decodeRecursive` is shown to do on a value `v`, with result `r`: it
returns `r` whenever the bound exceeds the weight of `v`, `r` is the decoded
form of `v`, and `r` has no decodable string leaf. -/
def DecodeSpec (u : String → Option Value) (v r : Value) : Prop :=
  (∀ fuel, v.weight < fuel → decodeRecursive u fuel v = some r) ∧
    DecodesTo u v r ∧ fullyDecoded u r


mutual
/-- The substitution over a body structure as the specification has it: one
recursive function on the variants of a value that applies `f` to every string
leaf, from left to right, and rebuilds the structure around the results.
Every mapping is entered, whatever its keys; no key is touched. -/
def mapStrings {σ : Type} (f : String → σ → String × σ) : Value → σ → Value × σ
  | .str s, g => let t := f s g; (.str t.1, t.2)
  | .arr xs, g => let t := mapStringsList f xs g; (.arr t.1, t.2)
  | .obj kvs, g => let t := mapStringsFields f kvs g; (.obj t.1, t.2)
  | .gmap entries, g => let t := mapStringsEntries f entries g; (.gmap t.1, t.2)
  | other, g => (other, g)
/-- The substitution over the elements of a sequence. -/
def mapStringsList {σ : Type} (f : String → σ → String × σ) :
    List Value → σ → List Value × σ
  | [], g => ([], g)
  | x :: xs, g =>
    let t := mapStrings f x g
    let u := mapStringsList f xs t.2
    (t.1 :: u.1, u.2)
/-- The substitution over the values of a mapping; the keys are kept. -/
def mapStringsFields {σ : Type} (f : String → σ → String × σ) :
    List (String × Value) → σ → List (String × Value) × σ
  | [], g => ([], g)
  | (k, v) :: kvs, g =>
    let t := mapStrings f v g
    let u := mapStringsFields f kvs t.2
    ((k, t.1) :: u.1, u.2)
/-- The substitution over the values of a mapping with general keys; the keys
are kept. -/
def mapStringsEntries {σ : Type} (f : String → σ → String × σ) :
    List (Value × Value) → σ → List (Value × Value) × σ
  | [], g => ([], g)
  | (k, v) :: kvs, g =>
    let t := mapStrings f v g
    let u := mapStringsEntries f kvs t.2
    ((k, t.1) :: u.1, u.2)
end

mutual
/-- The shape of a value: the value with every string leaf blanked.  Two
values of equal shape have the same keys at every mapping, the same length and
order at every sequence, and the same non-string leaves. -/
def shape : Value → Value
  | .str _ => .str ""
  | .arr xs => .arr (shapeList xs)
  | .obj kvs => .obj (shapeFields kvs)
  | .gmap entries => .gmap (shapeEntries entries)
  | other => other
/-- The shapes of the elements of a sequence. -/
def shapeList : List Value → List Value
  | [] => []
  | x :: xs => shape x :: shapeList xs
/-- The shapes of the values of a mapping, under their keys. -/
def shapeFields : List (String × Value) → List (String × Value)
  | [] => []
  | (k, v) :: kvs => (k, shape v) :: shapeFields kvs
/-- The shapes of the values of a mapping with general keys, under their keys. -/
def shapeEntries : List (Value × Value) → List (Value × Value)
  | [] => []
  | (k, v) :: kvs => (k, shape v) :: shapeEntries kvs
end

mutual
/-- Every mapping nested in the value has string keys: no
`map[interface{}]interface{}` occurs in it. -/
def stringKeyed : Value → Bool
  | .arr xs => stringKeyedList xs
  | .obj kvs => stringKeyedFields kvs
  | .gmap _ => false
  | _ => true
/-- Every mapping nested in the elements has string keys. -/
def stringKeyedList : List Value → Bool
  | [] => true
  | x :: xs => stringKeyed x && stringKeyedList xs
/-- Every mapping nested in the values of the entries has string keys. -/
def stringKeyedFields : List (String × Value) → Bool
  | [] => true
  | (_, v) :: kvs => stringKeyed v && stringKeyedFields kvs
end

/-- The mapping from environment name to state that the state file holds, as
both `loadState` and `saveState` read it: empty when the file cannot be read. -/
def storedStates {β : Type} (codec : Codec β) (disk : Disk β) :
    List (String × List (String × Value)) :=
  match disk.content with
  | some data => codec.Unmarshal data
  | none => []

/-- The codec reads a document back as it was written: `json.MarshalIndent`
succeeds on it and `json.Unmarshal` of the text written gives the document. -/
def readsBack {β : Type} (codec : Codec β) (m : List (String × List (String × Value))) : Prop :=
  ∃ b, codec.MarshalIndent m = some b ∧ codec.Unmarshal b = m

/-- A sample codec: the file content is the decoded document itself. -/
def sampleCodec : Codec (List (String × List (String × Value))) where
  Unmarshal := fun data => data
  MarshalIndent := fun allStates => some allStates

/-- The names of the declared requests that a list of names selects, in the
order of their declaration in the configuration. -/
def selected (filter : List String) (content : List (String × Except String Request)) :
    List String :=
  (content.map Prod.fst).filter (fun n => decide (n ∈ filter))

/-- A sample process environment whose generator `var` gives out the text of a
variable token. -/
def braceSys : Sys Nat where
  LookupEnv := fun _ => none
  Generators := fun k =>
    if k = "var" then some (fun g => ("\x7b\x7bhost\x7d\x7d", g + 1)) else none
  Intn := fun _ g => (0, g + 1)

/-- The scan for the closing pair runs to the end of the text: it meets neither
the pair nor a newline before the text ends, so that text set after it may
still close the token. -/
def runsOut (c : Char) : List Char → Bool
  | [] => true
  | x :: xs =>
    if x = c ∧ xs.head? = some c then false
    else if x = '\n' then false
    else runsOut c xs

/-- The scan of a pass over the text ends at the end of the text: every opening
pair that the scan meets is closed within the text or cut off by a newline in
it, and the scan does not end on an opening character.  The first argument
bounds the number of steps; the length of the text suffices. -/
def settledAux (o c : Char) : Nat → List Char → Bool
  | 0, cs => cs.isEmpty
  | _ + 1, [] => true
  | fuel + 1, x :: xs =>
    if x = o ∧ xs.head? = some o then
      match scanClose c xs.tail with
      | some (_, rest) => settledAux o c fuel rest
      | none => if runsOut c xs.tail then false else settledAux o c fuel xs
    else if x = o ∧ xs.isEmpty then false
    else settledAux o c fuel xs

/-- No token of the pass with delimiters `oo` and `cc` is left open at the end
of the text: what the pass does with the text does not depend on what follows
it. -/
def settled (o c : Char) (s : String) : Bool :=
  settledAux o c s.length s.data

/-- The text holds no opening pair and does not end in an opening character. -/
def plainText (o : Char) : List Char → Bool
  | [] => true
  | x :: xs =>
    if x = o then
      match xs with
      | [] => false
      | y :: _ => y ≠ o && plainText o xs
    else plainText o xs

/-- A sample body: the field `inner` holds a mapping with the integer key 1, as
`yaml.v3` decodes `inner: {1: "{{host}}"}`. -/
def sampleGeneralBody : List (String × Value) :=
  [("inner", .gmap [(.int 1, .str "\x7b\x7bhost\x7d\x7d")])]

/-- A sample runner whose state holds a response with a 64-bit identifier and
a fraction: the `float64` nearest to `2^64`, and `0.25`. -/
def idRunner : Runner where
  Config := sampleConfig
  EnvName := "dev"
  Environment := []
  State := [("r", .obj [("id", .float (.finite false "18446744073709552".data 20)),
    ("ratio", .float (.finite false "25".data 0))])]
/-! ## Lemmas -/

/-- A run without the closing character and without newline, followed by the closing pair, is scanned as the inner text of a match. -/
theorem scanClose_plain (c : Char) (inner rest : List Char)
    (h : ∀ x ∈ inner, x ≠ c ∧ x ≠ '\n') :
    scanClose c (inner ++ c :: c :: rest) = some (inner, rest) := by
  induction inner with
  | nil => simp [scanClose]
  | cons x xs ih =>
    have hx := h x (List.mem_cons_self _ _)
    have ih2 := ih (fun y hy => h y (List.mem_cons_of_mem _ hy))
    simp [scanClose, hx.1, hx.2, ih2]

/-- A text without the opening character has no match and is returned as it is. -/
theorem replaceAllAux_no_open {σ : Type} (o c : Char) (repl : String → σ → String × σ)
    (fuel : Nat) (cs : List Char) (g : σ) (h : ∀ x ∈ cs, x ≠ o) :
    replaceAllAux o c repl fuel cs g = (cs, g) := by
  induction cs generalizing fuel with
  | nil => cases fuel <;> simp [replaceAllAux]
  | cons x xs ih =>
    cases fuel with
    | zero => simp [replaceAllAux]
    | succ n =>
      have hx := h x (List.mem_cons_self _ _)
      have ih2 := ih n (fun y hy => h y (List.mem_cons_of_mem _ hy))
      simp [replaceAllAux, hx, ih2]

/-- A text that is exactly one well-formed token is replaced by the result of the replacement function on it. -/
theorem replaceAllAux_token {σ : Type} (o c : Char) (repl : String → σ → String × σ)
    (fuel : Nat) (inner : List Char) (g : σ) (h : ∀ x ∈ inner, x ≠ c ∧ x ≠ '\n') :
    replaceAllAux o c repl (fuel + 1) (o :: o :: (inner ++ [c, c])) g =
      ((repl (String.mk (o :: o :: (inner ++ [c, c]))) g).1.data,
       (repl (String.mk (o :: o :: (inner ++ [c, c]))) g).2) := by
  have hs := scanClose_plain c inner [] h
  cases fuel <;> simp [replaceAllAux, hs]

/-- Slicing two characters off each end of a token leaves its inner text. -/
theorem take_drop_token (o c : Char) (l : List Char) :
    ((o :: o :: (l ++ [c, c])).take ((o :: o :: (l ++ [c, c])).length - 2)).drop 2 = l := by
  have hlen : (o :: o :: (l ++ [c, c])).length - 2 = l.length + 2 := by
    simp
  rw [hlen]
  show List.take l.length (l ++ [c, c]) = l
  exact List.take_left' rfl

/-- The key of a token whose inner text has no space at either end is that inner text. -/
theorem matchKey_token (o c : Char) (key : String) (h : trimSpaces key = key) :
    matchKey (String.mk (o :: o :: (key.data ++ [c, c]))) = key := by
  have hs : slice (String.mk (o :: o :: (key.data ++ [c, c])))
      2 ((String.mk (o :: o :: (key.data ++ [c, c]))).length - 2) = key := by
    show String.mk (((o :: o :: (key.data ++ [c, c])).take
      ((o :: o :: (key.data ++ [c, c])).length - 2)).drop 2) = key
    rw [take_drop_token]
  unfold matchKey
  rw [hs, h]

/-- Splitting always gives at least one piece. -/
theorem splitChars_ne_nil (sep : Char) (cs : List Char) : splitChars sep cs ≠ [] := by
  induction cs with
  | nil => simp [splitChars]
  | cons c cs ih =>
    simp only [splitChars]
    split
    · simp
    · split <;> simp

/-- A text without the separator is a single piece. -/
theorem splitChars_plain (sep : Char) (cs : List Char) (h : ∀ x ∈ cs, x ≠ sep) :
    splitChars sep cs = [cs] := by
  induction cs with
  | nil => simp [splitChars]
  | cons c cs ih =>
    have hc := h c (List.mem_cons_self _ _)
    have ih2 := ih (fun y hy => h y (List.mem_cons_of_mem _ hy))
    simp [splitChars, hc, ih2]

/-- Splitting a text at its first separator. -/
theorem splitChars_append (sep : Char) (cs rest : List Char) (h : ∀ x ∈ cs, x ≠ sep) :
    splitChars sep (cs ++ sep :: rest) = cs :: splitChars sep rest := by
  induction cs with
  | nil => simp [splitChars]
  | cons c cs ih =>
    have hc := h c (List.mem_cons_self _ _)
    have ih2 := ih (fun y hy => h y (List.mem_cons_of_mem _ hy))
    simp [splitChars, hc, ih2]

/-- Splitting the text of a dotted path at the dots gives back its segments, when no segment contains a dot. -/
theorem split_dotted (segs : List String) (hne : segs ≠ [])
    (h : ∀ s ∈ segs, ∀ x ∈ s.data, x ≠ '.') : split (dotted segs) '.' = segs := by
  induction segs with
  | nil => exact absurd rfl hne
  | cons s rest ih =>
    cases rest with
    | nil =>
      simp [split, dotted, splitChars_plain '.' s.data (h s (List.mem_cons_self _ _))]
    | cons t rest =>
      have ih2 := ih (by simp) (fun y hy => h y (List.mem_cons_of_mem _ hy))
      simp only [split] at ih2
      have hd : (dotted (s :: t :: rest)).data = s.data ++ '.' :: (dotted (t :: rest)).data := by
        simp [dotted, String.data_append]
      simp only [split, hd, splitChars_append '.' s.data _ (h s (List.mem_cons_self _ _)),
        List.map_cons, ih2]

/-- A spoiled digit run stays spoiled. -/
theorem foldl_digitStep_none (cs : List Char) : cs.foldl digitStep none = none := by
  induction cs with
  | nil => rfl
  | cons c cs ih => simpa [List.foldl, digitStep] using ih

/-- A digit run with a value starts with a digit. -/
theorem digitsValue_head (c : Char) (cs : List Char) (n : Nat)
    (h : digitsValue (c :: cs) = some n) : '0' ≤ c ∧ c ≤ '9' := by
  by_contra hc
  simp only [digitsValue, List.foldl, digitStep, hc, if_false] at h
  rw [foldl_digitStep_none] at h
  exact Option.noConfusion h

/-- On a decimal index, `strconv.Atoi` returns its value. -/
theorem atoi_of_decimalIndex (seg : String) (i : Nat) (h : decimalIndex seg = some i) :
    atoi seg = some (i : Int) := by
  unfold decimalIndex at h
  cases hd : digitsValue seg.data with
  | none => simp [hd] at h
  | some n =>
    simp only [hd] at h
    have hn : n ≤ maxInt ∧ n = i := by
      by_cases hle : n ≤ maxInt
      · simp [hle] at h; exact ⟨hle, h⟩
      · simp [hle] at h
    obtain ⟨hle, rfl⟩ := hn
    unfold atoi
    split
    · next ds heq =>
      rw [heq] at hd
      have := digitsValue_head _ _ _ hd
      exact absurd this (by decide)
    · next ds heq =>
      rw [heq] at hd
      have := digitsValue_head _ _ _ hd
      exact absurd this (by decide)
    · simp [hd, hle]

/-- When every segment of the path resolves, `getValueFromMap` returns the default text form of the value reached. -/
theorem getValueFromMap_resolve (res : Value) (ps : List String) (v : Value)
    (h : resolvePath res ps = some v) : getValueFromMap res ps = fmtV v := by
  induction ps generalizing res with
  | nil =>
    simp only [resolvePath, Option.some.injEq] at h
    simp [getValueFromMap, h]
  | cons seg rest ih =>
    simp only [resolvePath] at h
    cases hs : resolveStep res seg with
    | none => simp [hs] at h
    | some x =>
      simp only [hs] at h
      have hx := ih x h
      cases res with
      | obj m =>
        simp only [resolveStep] at hs
        simp [getValueFromMap, mapIndex, hs, hx]
      | arr s =>
        simp only [resolveStep] at hs
        cases hd : decimalIndex seg with
        | none => simp [hd] at hs
        | some i =>
          simp only [hd] at hs
          have ha := atoi_of_decimalIndex seg i hd
          have hlt : i < s.length := by
            by_contra hge
            rw [List.getElem?_eq_none (by omega)] at hs
            exact Option.noConfusion hs
          obtain ⟨_, hget⟩ := List.getElem?_eq_some.mp hs
          simp [getValueFromMap, ha, hlt, hget, hx]
      | null => simp [resolveStep] at hs
      | bool b => simp [resolveStep] at hs
      | int i => simp [resolveStep] at hs
      | float n => simp [resolveStep] at hs
      | gmap e => simp [resolveStep] at hs
      | time t => simp [resolveStep] at hs
      | str s => simp [resolveStep] at hs

/-- The characters of a variable token. -/
theorem token_data (key : String) :
    ("\x7b\x7b" ++ key ++ "\x7d\x7d").data = '\x7b' :: '\x7b' :: (key.data ++ ['\x7d', '\x7d']) := by
  simp [String.data_append]

/-- A variable token as a character list. -/
theorem token_eq (key : String) :
    "\x7b\x7b" ++ key ++ "\x7d\x7d" = String.mk ('\x7b' :: '\x7b' :: (key.data ++ ['\x7d', '\x7d'])) := by
  rw [← token_data]

/-- On a well-formed variable token, `substitute` is the variable closure on that token and leaves the random state alone. -/
theorem substitute_token {σ : Type} (sys : Sys σ) (r : Runner) (key : String) (g : σ)
    (hk : plainKey key) :
    substitute sys r ("\x7b\x7b" ++ key ++ "\x7d\x7d") g =
      (substituteVar sys r ("\x7b\x7b" ++ key ++ "\x7d\x7d"), g) := by
  obtain ⟨hchars, _⟩ := hk
  have hgen : substituteGenerators sys ("\x7b\x7b" ++ key ++ "\x7d\x7d") g =
      ("\x7b\x7b" ++ key ++ "\x7d\x7d", g) := by
    unfold substituteGenerators replaceAllStringFunc
    rw [replaceAllAux_no_open]
    intro x hx
    rw [token_data] at hx
    simp only [List.mem_cons, List.mem_append, List.mem_singleton] at hx
    rcases hx with rfl | rfl | h | rfl | rfl | h
    · decide
    · decide
    · exact (hchars x h).1
    · decide
    · decide
    · simp at h
  have hvar : substituteVariables sys r ("\x7b\x7b" ++ key ++ "\x7d\x7d") =
      substituteVar sys r ("\x7b\x7b" ++ key ++ "\x7d\x7d") := by
    unfold substituteVariables replaceAllStringFunc
    have hlen : ("\x7b\x7b" ++ key ++ "\x7d\x7d").length = (key.data.length + 3) + 1 := by
      show ("\x7b\x7b" ++ key ++ "\x7d\x7d").data.length = _
      rw [token_data]
      simp
    rw [hlen, token_data, replaceAllAux_token _ _ _ _ _ _ (fun x hx => ⟨(hchars x hx).2.1, (hchars x hx).2.2⟩)]
    rw [← token_eq]
  simp only [substitute, hgen, hvar]

/-- The variable closure on a key that neither the OS environment nor `Environment` has, in terms of the segments of the key. -/
theorem substituteVar_state {σ : Type} (sys : Sys σ) (r : Runner) (m n : String)
    (ps : List String)
    (hos : sys.LookupEnv (matchKey m) = none)
    (henv : r.Environment.lookup (matchKey m) = none)
    (hsp : split (matchKey m) '.' = n :: ps) :
    substituteVar sys r m =
      if ps ≠ [] then
        match r.State.lookup n with
        | some res => getValueFromMap res ps
        | none => m
      else m := by
  unfold substituteVar
  simp only [hos, henv, hsp]
  cases ps with
  | nil => simp
  | cons p ps => cases hl : List.lookup n r.State <;> simp [hl]

/-- Decoding the elements of a sequence, given that every value of smaller weight decodes. -/
theorem decode_list_of (u : String → Option Value) (k : Nat)
    (ih : ∀ v : Value, v.weight < k → ∃ r, DecodeSpec u v r) :
    ∀ xs : List Value, weightList xs < k →
      ∃ rs, (∀ fuel, weightList xs < fuel → mapOpt (decodeRecursive u fuel) xs = some rs) ∧
        DecodesToList u xs rs ∧ fullyDecodedList u rs := by
  intro xs
  induction xs with
  | nil =>
    intro _
    exact ⟨[], fun _ _ => rfl, DecodesToList.nil, trivial⟩
  | cons x xs ihx =>
    intro hw
    simp only [weightList] at hw
    obtain ⟨r, hr1, hr2, hr3⟩ := ih x (by omega)
    obtain ⟨rs, hrs1, hrs2, hrs3⟩ := ihx (by omega)
    refine ⟨r :: rs, ?_, DecodesToList.cons x r xs rs hr2 hrs2, ⟨hr3, hrs3⟩⟩
    intro fuel hf
    simp only [weightList] at hf
    simp [mapOpt, hr1 fuel (by omega), hrs1 fuel (by omega)]

/-- Decoding the values of a mapping, given that every value of smaller weight decodes. -/
theorem decode_fields_of (u : String → Option Value) (k : Nat)
    (ih : ∀ v : Value, v.weight < k → ∃ r, DecodeSpec u v r) :
    ∀ kvs : List (String × Value), weightFields kvs < k →
      ∃ rs, (∀ fuel, weightFields kvs < fuel →
          mapOpt (fun kv => (decodeRecursive u fuel kv.2).map (fun d => (kv.1, d))) kvs = some rs) ∧
        DecodesToFields u kvs rs ∧ fullyDecodedFields u rs := by
  intro kvs
  induction kvs with
  | nil =>
    intro _
    exact ⟨[], fun _ _ => rfl, DecodesToFields.nil, trivial⟩
  | cons kv kvs ihx =>
    obtain ⟨key, x⟩ := kv
    intro hw
    simp only [weightFields] at hw
    obtain ⟨r, hr1, hr2, hr3⟩ := ih x (by omega)
    obtain ⟨rs, hrs1, hrs2, hrs3⟩ := ihx (by omega)
    refine ⟨(key, r) :: rs, ?_, DecodesToFields.cons key x r kvs rs hr2 hrs2, ⟨hr3, hrs3⟩⟩
    intro fuel hf
    simp only [weightFields] at hf
    simp [mapOpt, hr1 fuel (by omega), hrs1 fuel (by omega)]

/-- Every value of weight below the bound decodes as specified. -/
theorem decode_spec_exists (u : String → Option Value)
    (hshrink : ∀ s d, u s = some d → d.weight ≤ s.length) :
    ∀ k (v : Value), v.weight < k → ∃ r, DecodeSpec u v r := by
  intro k
  induction k with
  | zero => intro v h; omega
  | succ k ih =>
    intro v hv
    cases v with
    | null =>
      refine ⟨.null, ?_, DecodesTo.null, trivial⟩
      intro fuel hf
      cases fuel with
      | zero => omega
      | succ f => rfl
    | bool b =>
      refine ⟨.bool b, ?_, DecodesTo.bool b, trivial⟩
      intro fuel hf
      cases fuel with
      | zero => omega
      | succ f => rfl
    | int i =>
      refine ⟨.int i, ?_, DecodesTo.int i, trivial⟩
      intro fuel hf
      cases fuel with
      | zero => omega
      | succ f => rfl
    | float n =>
      refine ⟨.float n, ?_, DecodesTo.float n, trivial⟩
      intro fuel hf
      cases fuel with
      | zero => omega
      | succ f => rfl
    | gmap e =>
      refine ⟨.gmap e, ?_, DecodesTo.gmap e, trivial⟩
      intro fuel hf
      cases fuel with
      | zero => omega
      | succ f => rfl
    | time t =>
      refine ⟨.time t, ?_, DecodesTo.time t, trivial⟩
      intro fuel hf
      cases fuel with
      | zero => omega
      | succ f => rfl
    | str s =>
      simp only [Value.weight] at hv
      by_cases hl : looksLikeJSON s = true
      · cases hu : u s with
        | none =>
          have hnd : ¬ decodable u s := by simp [decodable, hu]
          refine ⟨.str s, ?_, DecodesTo.keep s hnd, hnd⟩
          intro fuel hf
          cases fuel with
          | zero => omega
          | succ f => simp [decodeRecursive, hl, hu]
        | some d =>
          have hd := hshrink s d hu
          obtain ⟨r, hr1, hr2, hr3⟩ := ih d (by omega)
          refine ⟨r, ?_, DecodesTo.parsed s d r hl hu hr2, hr3⟩
          intro fuel hf
          simp only [Value.weight] at hf
          cases fuel with
          | zero => omega
          | succ f => simp [decodeRecursive, hl, hu, hr1 f (by omega)]
      · have hnd : ¬ decodable u s := by simp [decodable, hl]
        refine ⟨.str s, ?_, DecodesTo.keep s hnd, hnd⟩
        intro fuel hf
        cases fuel with
        | zero => omega
        | succ f => simp [decodeRecursive, hl]
    | arr xs =>
      simp only [Value.weight] at hv
      obtain ⟨rs, h1, h2, h3⟩ := decode_list_of u k ih xs (by omega)
      refine ⟨.arr rs, ?_, DecodesTo.arr xs rs h2, h3⟩
      intro fuel hf
      simp only [Value.weight] at hf
      cases fuel with
      | zero => omega
      | succ f => simp [decodeRecursive, h1 f (by omega)]
    | obj kvs =>
      simp only [Value.weight] at hv
      obtain ⟨rs, h1, h2, h3⟩ := decode_fields_of u k ih kvs (by omega)
      refine ⟨.obj rs, ?_, DecodesTo.obj kvs rs h2, h3⟩
      intro fuel hf
      simp only [Value.weight] at hf
      cases fuel with
      | zero => omega
      | succ f => simp [decodeRecursive, h1 f (by omega)]

/-- The variable closure on one match: the OS environment first, then `Environment`, then the dotted path through `State`, else the match itself. -/
theorem substituteVar_precedence {σ : Type} (sys : Sys σ) (r : Runner) (m : String) :
    (∀ val, sys.LookupEnv (matchKey m) = some val → substituteVar sys r m = val) ∧
    (sys.LookupEnv (matchKey m) = none →
      ∀ val, r.Environment.lookup (matchKey m) = some val →
        substituteVar sys r m = fmtV val) ∧
    (sys.LookupEnv (matchKey m) = none → r.Environment.lookup (matchKey m) = none →
      (∀ res, (split (matchKey m) '.').length > 1 →
        r.State.lookup ((split (matchKey m) '.').headD "") = some res →
        substituteVar sys r m = getValueFromMap res (split (matchKey m) '.').tail) ∧
      ((split (matchKey m) '.').length ≤ 1 ∨
        r.State.lookup ((split (matchKey m) '.').headD "") = none →
        substituteVar sys r m = m)) := by
  refine ⟨?_, ?_, ?_⟩
  · intro val h
    simp [substituteVar, h]
  · intro h val h2
    simp [substituteVar, h, h2]
  · intro h h2
    refine ⟨?_, ?_⟩
    · intro res hl hs
      simp only [substituteVar, h, h2, hl, if_true, hs]
    · intro hc
      simp only [substituteVar, h, h2]
      split
      · rcases hc with hc | hc
        · omega
        · rw [hc]
      · rfl

/-- The generator closure on one match whose tag does not start with `oneof:`: the generator registered under the tag, else the one under `random_` and the tag, else the match itself. -/
theorem substituteGen_registry {σ : Type} (sys : Sys σ) (m : String) (g : σ)
    (htag : hasPrefix (matchKey m) "oneof:" = false) :
    (∀ gen, sys.Generators (matchKey m) = some gen → substituteGen sys m g = gen g) ∧
    (sys.Generators (matchKey m) = none →
      ∀ gen, sys.Generators ("random_" ++ matchKey m) = some gen →
        substituteGen sys m g = gen g) ∧
    (sys.Generators (matchKey m) = none →
      sys.Generators ("random_" ++ matchKey m) = none →
        substituteGen sys m g = (m, g)) := by
  refine ⟨?_, ?_, ?_⟩
  · intro gen h
    simp [substituteGen, htag, lookupGenerator, h]
  · intro h gen h2
    simp [substituteGen, htag, lookupGenerator, h, h2]
  · intro h h2
    simp [substituteGen, htag, lookupGenerator, h, h2]

/-- The sample parser returns values no larger than the text parsed. -/
theorem sampleUnmarshal_shrinks :
    ∀ s d, sampleUnmarshal s = some d → d.weight ≤ s.length := by
  intro s d h
  unfold sampleUnmarshal at h
  split at h
  · next hs =>
    subst hs
    cases h
    decide
  · split at h
    · next hs =>
      subst hs
      cases h
      decide
    · cases h

mutual
/-- The type switch of the two loops is the substitution of the specification
on one value in which every mapping has string keys. -/
theorem substituteValue_eq_mapStrings {σ : Type} (sys : Sys σ) (r : Runner) :
    ∀ (v : Value) (g : σ), stringKeyed v = true →
      substituteValue sys r v g = mapStrings (substitute sys r) v g
  | .str s, g, _ => by simp [substituteValue, mapStrings]
  | .obj val, g, h => by
    simp only [stringKeyed] at h
    simp [substituteValue, mapStrings, substituteMap_eq_mapStrings sys r val g h]
  | .arr val, g, h => by
    simp only [stringKeyed] at h
    simp [substituteValue, mapStrings, substituteSlice_eq_mapStrings sys r val g h]
  | .gmap e, g, h => by simp [stringKeyed] at h
  | .null, g, _ => by simp [substituteValue, mapStrings]
  | .bool b, g, _ => by simp [substituteValue, mapStrings]
  | .int i, g, _ => by simp [substituteValue, mapStrings]
  | .float n, g, _ => by simp [substituteValue, mapStrings]
  | .time t, g, _ => by simp [substituteValue, mapStrings]
/-- `substituteMap` is the substitution of the specification on the entries of
a mapping in which every mapping has string keys. -/
theorem substituteMap_eq_mapStrings {σ : Type} (sys : Sys σ) (r : Runner) :
    ∀ (m : List (String × Value)) (g : σ), stringKeyedFields m = true →
      substituteMap sys r m g = mapStringsFields (substitute sys r) m g
  | [], g, _ => by simp [substituteMap, mapStringsFields]
  | (k, v) :: rest, g, h => by
    simp only [stringKeyedFields, Bool.and_eq_true] at h
    simp [substituteMap, mapStringsFields, substituteValue_eq_mapStrings sys r v g h.1,
      substituteMap_eq_mapStrings sys r rest _ h.2]
/-- `substituteSlice` is the substitution of the specification on the elements
of a sequence in which every mapping has string keys. -/
theorem substituteSlice_eq_mapStrings {σ : Type} (sys : Sys σ) (r : Runner) :
    ∀ (s : List Value) (g : σ), stringKeyedList s = true →
      substituteSlice sys r s g = mapStringsList (substitute sys r) s g
  | [], g, _ => by simp [substituteSlice, mapStringsList]
  | v :: rest, g, h => by
    simp only [stringKeyedList, Bool.and_eq_true] at h
    simp [substituteSlice, mapStringsList, substituteValue_eq_mapStrings sys r v g h.1,
      substituteSlice_eq_mapStrings sys r rest _ h.2]
end

mutual
/-- The two loops keep the shape of a value, whatever its mappings. -/
theorem shape_substituteValue {σ : Type} (sys : Sys σ) (r : Runner) :
    ∀ (v : Value) (g : σ), shape (substituteValue sys r v g).1 = shape v
  | .str s, g => by simp [substituteValue, shape]
  | .arr xs, g => by simp [substituteValue, shape, shapeList_substituteSlice sys r xs g]
  | .obj kvs, g => by simp [substituteValue, shape, shapeFields_substituteMap sys r kvs g]
  | .gmap e, g => by simp [substituteValue]
  | .null, g => by simp [substituteValue]
  | .bool b, g => by simp [substituteValue]
  | .int i, g => by simp [substituteValue]
  | .float n, g => by simp [substituteValue]
  | .time t, g => by simp [substituteValue]
/-- `substituteSlice` keeps the shape of a sequence. -/
theorem shapeList_substituteSlice {σ : Type} (sys : Sys σ) (r : Runner) :
    ∀ (xs : List Value) (g : σ), shapeList (substituteSlice sys r xs g).1 = shapeList xs
  | [], g => by simp [substituteSlice]
  | x :: xs, g => by
    simp [substituteSlice, shapeList, shape_substituteValue sys r x g,
      shapeList_substituteSlice sys r xs]
/-- `substituteMap` keeps the shape of a mapping. -/
theorem shapeFields_substituteMap {σ : Type} (sys : Sys σ) (r : Runner) :
    ∀ (kvs : List (String × Value)) (g : σ),
      shapeFields (substituteMap sys r kvs g).1 = shapeFields kvs
  | [], g => by simp [substituteMap]
  | (k, v) :: kvs, g => by
    simp [substituteMap, shapeFields, shape_substituteValue sys r v g,
      shapeFields_substituteMap sys r kvs]
end

/-- Reading a key after assigning it gives the value assigned. -/
theorem lookup_mapSet_self {α : Type} (m : List (String × α)) (k : String) (v : α) :
    (mapSet m k v).lookup k = some v := by
  induction m with
  | nil => simp [mapSet, List.lookup]
  | cons kv rest ih =>
    obtain ⟨k1, v1⟩ := kv
    by_cases h : k1 = k
    · simp [mapSet, h, List.lookup]
    · have h2 : (k == k1) = false := by simp [Ne.symm h]
      simp [mapSet, h, List.lookup, h2, ih]

/-- Assigning a key leaves every other key as it was. -/
theorem lookup_mapSet_ne {α : Type} (m : List (String × α)) (k k2 : String) (v : α)
    (hne : k2 ≠ k) : (mapSet m k v).lookup k2 = m.lookup k2 := by
  induction m with
  | nil =>
    have h2 : (k2 == k) = false := by simp [hne]
    simp [mapSet, List.lookup, h2]
  | cons kv rest ih =>
    obtain ⟨k1, v1⟩ := kv
    by_cases h : k1 = k
    · subst h
      have h2 : (k2 == k1) = false := by simp [hne]
      simp [mapSet, List.lookup, h2]
    · by_cases h3 : k2 = k1
      · subst h3
        simp [mapSet, h, List.lookup]
      · have h4 : (k2 == k1) = false := by simp [h3]
        simp [mapSet, h, List.lookup, h4, ih]

/-- `loadState` reads the entry of the environment in the mapping the file holds, empty when there is none. -/
theorem loadState_eq {β : Type} (codec : Codec β) (envName : String) (disk : Disk β) :
    loadState codec envName disk = ((storedStates codec disk).lookup envName).getD [] := by
  unfold loadState storedStates
  cases disk.content with
  | none => simp
  | some data => cases h : List.lookup envName (codec.Unmarshal data) <;> simp [h]

/-- After `saveState` on a writable file the file holds the former mapping with the entry of the environment replaced. -/
theorem storedStates_saveState {β : Type} (codec : Codec β) (r : Runner) (disk : Disk β)
    (hw : disk.writable = true)
    (hcodec : readsBack codec (mapSet (storedStates codec disk) r.EnvName r.State)) :
    storedStates codec (saveState codec r disk) =
      mapSet (storedStates codec disk) r.EnvName r.State ∧
    (saveState codec r disk).writable = true := by
  obtain ⟨b, hb1, hb2⟩ := hcodec
  unfold storedStates at hb1 hb2 ⊢
  unfold saveState
  simp only [hb1, hw, if_true]
  exact ⟨hb2, trivial⟩

/-- The sample codec reads every document back. -/
theorem sampleCodec_readsBack (m : List (String × List (String × Value))) :
    readsBack sampleCodec m :=
  ⟨m, rfl, rfl⟩

/-- The loop of `ExecuteRequests` executes a prefix of the selected names, all of them when it returns no error, and keeps the configuration. -/
theorem executeLoop_spec {ω : Type} (exec : Exec ω) (filter : List String) :
    ∀ (content : List (String × Except String Request)) (r : Runner) (w : ω),
      (executeLoop exec filter content r w).1.executed <+: selected filter content ∧
      ((executeLoop exec filter content r w).1.err = none →
        (executeLoop exec filter content r w).1.executed = selected filter content ∧
        (executeLoop exec filter content r w).2 = selected filter content) ∧
      (executeLoop exec filter content r w).1.runner.Config = r.Config := by
  intro content
  induction content with
  | nil => intro r w; simp [executeLoop, selected]
  | cons e rest ih =>
    intro r w
    obtain ⟨name, node⟩ := e
    by_cases hin : name ∈ filter
    · cases node with
      | error msg => simp [executeLoop, hin, selected]
      | ok req =>
        rcases hx : exec name req r w with ⟨sw, _ | e⟩
        · have := ih { r with State := sw.1 } sw.2
          simp only [selected] at this
          simp [executeLoop, hin, hx, selected, this.1, List.prefix_cons_inj]
          exact ⟨this.2.1, this.2.2⟩
        · simp [executeLoop, hin, hx, selected, List.prefix_cons_inj]
    · have := ih r w
      simp only [selected] at this
      simp [executeLoop, hin, selected]
      exact this

/-- `ExecuteRequests` executes what its loop executes, and returns no error only if the loop returned none. -/
theorem ExecuteRequests_spec {ω : Type} (exec : Exec ω) (r : Runner) (reqNames : String)
    (w : ω) (content : List (String × Except String Request))
    (hc : r.Config.Requests = some content) :
    (ExecuteRequests exec r reqNames w).executed =
      (executeLoop exec ((split reqNames ',').map trimSpace) content r w).1.executed ∧
    ((ExecuteRequests exec r reqNames w).err = none →
      (executeLoop exec ((split reqNames ',').map trimSpace) content r w).1.err = none) := by
  unfold ExecuteRequests
  simp only [hc]
  cases he : (executeLoop exec ((split reqNames ',').map trimSpace) content r w).1.err with
  | some e => simp [he]
  | none =>
    simp only
    split <;> simp

/-- The text left after a match is shorter than the text scanned. -/
theorem scanClose_length (c : Char) :
    ∀ (xs inner rest : List Char), scanClose c xs = some (inner, rest) →
      rest.length < xs.length := by
  intro xs
  induction xs with
  | nil => intro inner rest h; simp [scanClose] at h
  | cons x xs ih =>
    intro inner rest h
    simp only [scanClose] at h
    split at h
    · simp only [Option.some.injEq, Prod.mk.injEq] at h
      rw [← h.2]
      simp only [List.length_tail, List.length_cons]
      omega
    · split at h
      · cases h
      · cases hs : scanClose c xs with
        | none => simp [hs] at h
        | some p =>
          obtain ⟨i, rst⟩ := p
          simp only [hs, Option.some.injEq, Prod.mk.injEq] at h
          have := ih i rst hs
          rw [← h.2]
          simp only [List.length_cons]
          omega

/-- Any bound that is at least the length of the text gives the same result: the bound used by `replaceAllStringFunc` is never exhausted. -/
theorem replaceAllAux_fuel {σ : Type} (o c : Char) (repl : String → σ → String × σ) :
    ∀ (n m : Nat) (cs : List Char) (g : σ), cs.length ≤ n → cs.length ≤ m →
      replaceAllAux o c repl n cs g = replaceAllAux o c repl m cs g := by
  intro n
  induction n with
  | zero =>
    intro m cs g hn _
    have : cs = [] := List.length_eq_zero.mp (Nat.le_zero.mp hn)
    subst this
    cases m <;> simp [replaceAllAux]
  | succ n ih =>
    intro m cs g hn hm
    cases cs with
    | nil => cases m <;> simp [replaceAllAux]
    | cons x xs =>
      cases m with
      | zero => simp at hm
      | succ m =>
        simp only [List.length_cons, Nat.add_le_add_iff_right] at hn hm
        simp only [replaceAllAux]
        split
        · cases hs : scanClose c xs.tail with
          | none => simp only [ih m xs g hn hm]
          | some p =>
            obtain ⟨inner, rest⟩ := p
            have hl := scanClose_length c _ _ _ hs
            have ht : xs.tail.length ≤ xs.length := by simp
            simp only [ih m rest _ (by omega) (by omega)]
        · simp only [ih m xs g hn hm]

/-- The loop returns no error when every declared request decodes and no request fails. -/
theorem executeLoop_ok {ω : Type} (exec : Exec ω) (filter : List String)
    (hexec : ∀ name req r w, (exec name req r w).2 = none) :
    ∀ (content : List (String × Except String Request)) (r : Runner) (w : ω),
      (∀ e ∈ content, ∃ req, e.2 = .ok req) →
      (executeLoop exec filter content r w).1.err = none := by
  intro content
  induction content with
  | nil => intro r w _; simp [executeLoop]
  | cons e rest ih =>
    intro r w hdec
    obtain ⟨name, node⟩ := e
    have hrest : ∀ e ∈ rest, ∃ req, e.2 = .ok req :=
      fun e he => hdec e (List.mem_cons_of_mem _ he)
    by_cases hin : name ∈ filter
    · obtain ⟨req, hreq⟩ := hdec (name, node) (List.mem_cons_self _ _)
      simp only at hreq
      subst hreq
      have hx := hexec name req r w
      rcases hxe : exec name req r w with ⟨sw, oe⟩
      rw [hxe] at hx
      simp only at hx
      subst hx
      simp [executeLoop, hin, hxe, ih _ _ hrest]
    · simp [executeLoop, hin, ih r w hrest]

/-- A name of the deduplicated list is a name of the list. -/
theorem mem_uniq (xs : List String) (x : String) : x ∈ uniq xs → x ∈ xs := by
  induction xs with
  | nil => simp [uniq]
  | cons y ys ih =>
    simp only [uniq]
    split
    · intro h; exact List.mem_cons_of_mem _ (ih h)
    · intro h
      rcases List.mem_cons.mp h with h | h
      · exact h ▸ List.mem_cons_self _ _
      · exact List.mem_cons_of_mem _ (ih h)

/-- `ExecuteRequests` returns no error when every named request is declared, every declared request decodes and no request fails. -/
theorem ExecuteRequests_ok {ω : Type} (exec : Exec ω) (r : Runner) (reqNames : String)
    (w : ω) (content : List (String × Except String Request))
    (hc : r.Config.Requests = some content)
    (hdec : ∀ e ∈ content, ∃ req, e.2 = .ok req)
    (hexec : ∀ name req r w, (exec name req r w).2 = none)
    (hdef : ∀ n ∈ (split reqNames ',').map trimSpace, n ∈ content.map Prod.fst) :
    (ExecuteRequests exec r reqNames w).err = none := by
  have hok := executeLoop_ok exec ((split reqNames ',').map trimSpace) hexec content r w hdec
  have hfound := ((executeLoop_spec exec ((split reqNames ',').map trimSpace) content r w).2.1 hok).2
  unfold ExecuteRequests
  simp only [hc, hok, hfound]
  have hm : List.filter (fun req => !decide (req ∈ selected ((split reqNames ',').map trimSpace) content))
      (uniq ((split reqNames ',').map trimSpace)) = [] := by
    rw [List.filter_eq_nil_iff]
    intro a ha
    have ha2 := mem_uniq _ _ ha
    have : a ∈ selected ((split reqNames ',').map trimSpace) content := by
      simp only [selected, List.mem_filter, decide_eq_true_eq]
      exact ⟨hdef a ha2, ha2⟩
    simp [this]
  simp [hm, hok, sortNames]

/-- What `ExecuteRequests` executes is a prefix of the declared requests that the list selects, in the order of their declaration, and all of them when no error is returned; no error is returned when every named request is declared, every declared request decodes and no request fails. -/
theorem ExecuteRequests_declaration_order {ω : Type} (exec : Exec ω) (r : Runner)
    (reqNames : String) (w : ω) (content : List (String × Except String Request))
    (hc : r.Config.Requests = some content) :
    (ExecuteRequests exec r reqNames w).executed <+:
      selected ((split reqNames ',').map trimSpace) content ∧
    ((ExecuteRequests exec r reqNames w).err = none →
      (ExecuteRequests exec r reqNames w).executed =
        selected ((split reqNames ',').map trimSpace) content) ∧
    ((∀ e ∈ content, ∃ req, e.2 = .ok req) →
      (∀ name req r w, (exec name req r w).2 = none) →
      (∀ n ∈ (split reqNames ',').map trimSpace, n ∈ content.map Prod.fst) →
      (ExecuteRequests exec r reqNames w).err = none) := by
  obtain ⟨h1, h2⟩ := ExecuteRequests_spec exec r reqNames w content hc
  obtain ⟨h3, h4, _⟩ := executeLoop_spec exec ((split reqNames ',').map trimSpace) content r w
  refine ⟨?_, ?_, ?_⟩
  · rw [h1]; exact h3
  · intro he; rw [h1]; exact (h4 (h2 he)).1
  · intro hdec hexec hdef
    exact ExecuteRequests_ok exec r reqNames w content hc hdec hexec hdef

/-- The traversal failures that do yield the sentinel of the failed segment: a value that is neither a mapping nor a sequence, a sequence indexed by a segment that is not a number, and a sequence indexed out of range. -/
theorem getValueFromMap_sentinel (data : Value) (part : String) (rest : List String) :
    ((∀ m, data ≠ .obj m) → (∀ s, data ≠ .arr s) →
      getValueFromMap data (part :: rest) = missing part) ∧
    (∀ s, data = .arr s → atoi part = none →
      getValueFromMap data (part :: rest) = missing part) ∧
    (∀ s idx, data = .arr s → atoi part = some idx → ¬ (0 ≤ idx ∧ idx.toNat < s.length) →
      getValueFromMap data (part :: rest) = missing part) := by
  refine ⟨?_, ?_, ?_⟩
  · intro hm hs
    cases data with
    | obj m => exact absurd rfl (hm m)
    | arr s => exact absurd rfl (hs s)
    | null => rfl
    | bool b => rfl
    | int i => rfl
    | float n => rfl
    | gmap e => rfl
    | time t => rfl
    | str s => rfl
  · intro s hd ha
    subst hd
    simp [getValueFromMap, ha]
  · intro s idx hd ha hr
    subst hd
    simp only [getValueFromMap, ha, hr, if_false]

/-- A leading text without the opening character is copied, and the scan goes on after it. -/
theorem replaceAllAux_prefix {σ : Type} (o c : Char) (repl : String → σ → String × σ)
    (pre rest : List Char) (g : σ) (hpre : ∀ x ∈ pre, x ≠ o) :
    ∀ n, (pre ++ rest).length ≤ n →
      replaceAllAux o c repl n (pre ++ rest) g =
        (pre ++ (replaceAllAux o c repl rest.length rest g).1,
          (replaceAllAux o c repl rest.length rest g).2) := by
  induction pre with
  | nil =>
    intro n hn
    simp only [List.nil_append] at hn ⊢
    rw [replaceAllAux_fuel o c repl n rest.length rest g hn (Nat.le_refl _)]
  | cons x pre ih =>
    intro n hn
    cases n with
    | zero => simp at hn
    | succ n =>
      have hx := hpre x (List.mem_cons_self _ _)
      have ih2 := ih (fun y hy => hpre y (List.mem_cons_of_mem _ hy)) n
        (by simp only [List.cons_append, List.length_cons] at hn; omega)
      simp [replaceAllAux, hx, ih2]

/-- A token matched at the head of the text is replaced by the result of the replacement function, which is not scanned again; the scan goes on after the token. -/
theorem replaceAllAux_token_then {σ : Type} (o c : Char) (repl : String → σ → String × σ)
    (inner post : List Char) (g : σ)
    (hs : scanClose c (inner ++ c :: c :: post) = some (inner, post)) :
    ∀ n, (o :: o :: (inner ++ c :: c :: post)).length ≤ n →
      replaceAllAux o c repl n (o :: o :: (inner ++ c :: c :: post)) g =
        ((repl (String.mk (o :: o :: (inner ++ [c, c]))) g).1.data ++
          (replaceAllAux o c repl post.length post
            (repl (String.mk (o :: o :: (inner ++ [c, c]))) g).2).1,
         (replaceAllAux o c repl post.length post
            (repl (String.mk (o :: o :: (inner ++ [c, c]))) g).2).2) := by
  intro n hn
  cases n with
  | zero => simp at hn
  | succ n =>
    have hf := replaceAllAux_fuel o c repl n post.length post
      (repl (String.mk (o :: o :: (inner ++ [c, c]))) g).2
      (by simp only [List.length_cons, List.length_append] at hn; omega) (Nat.le_refl _)
    simp [replaceAllAux, hs, hf]

/-- The variable pass leaves a text without an opening brace as it is. -/
theorem substituteVariables_no_brace {σ : Type} (sys : Sys σ) (r : Runner) (s : String)
    (h : ∀ x ∈ s.data, x ≠ '\x7b') : substituteVariables sys r s = s := by
  unfold substituteVariables replaceAllStringFunc
  rw [replaceAllAux_no_open _ _ _ _ _ _ h]

/-- The generator pass on a text whose leftmost token is well formed: the text before it, the output of the closure on the token, the generator pass of the text after it. -/
theorem substituteGenerators_leftmost {σ : Type} (sys : Sys σ) (pre inner post : String) (g : σ)
    (hpre : ∀ x ∈ pre.data, x ≠ '[')
    (hinner : ∀ x ∈ inner.data, x ≠ ']' ∧ x ≠ '\n') :
    substituteGenerators sys (pre ++ ("[[" ++ inner ++ "]]") ++ post) g =
      (pre ++ (substituteGen sys ("[[" ++ inner ++ "]]") g).1 ++
          (substituteGenerators sys post (substituteGen sys ("[[" ++ inner ++ "]]") g).2).1,
        (substituteGenerators sys post (substituteGen sys ("[[" ++ inner ++ "]]") g).2).2) := by
  have htok : "[[" ++ inner ++ "]]" = String.mk ('[' :: '[' :: (inner.data ++ [']', ']'])) := by
    apply String.ext
    simp [String.data_append]
  have hdata : (pre ++ ("[[" ++ inner ++ "]]") ++ post).data =
      pre.data ++ ('[' :: '[' :: (inner.data ++ ']' :: ']' :: post.data)) := by
    simp [String.data_append]
  unfold substituteGenerators replaceAllStringFunc
  have hlen : (pre ++ ("[[" ++ inner ++ "]]") ++ post).length =
      (pre.data ++ ('[' :: '[' :: (inner.data ++ ']' :: ']' :: post.data))).length := by
    rw [← hdata]; rfl
  rw [hlen, hdata, replaceAllAux_prefix _ _ _ _ _ _ hpre _ (Nat.le_refl _),
    replaceAllAux_token_then _ _ _ _ _ _ (scanClose_plain _ _ _ hinner) _ (Nat.le_refl _), ← htok]
  apply Prod.ext
  · apply String.ext
    simp [String.data_append]
  · rfl

/-- Reading the one-element list of the empty string gives the empty string at every index. -/
theorem getD_singleton_empty (i : Nat) : ([""] : List String).getD i "" = "" := by
  cases i <;> rfl

/-- The generator closure on the token `[[oneof:]]` returns the empty string. -/
theorem substituteGen_oneof_empty {σ : Type} (sys : Sys σ) (g : σ) :
    substituteGen sys "[[oneof:]]" g = ("", (sys.Intn 1 g).2) := by
  have hk : matchKey "[[oneof:]]" = "oneof:" := by decide
  have hp : hasPrefix "oneof:" "oneof:" = true := by decide
  have hs : split (slice "oneof:" 6 "oneof:".length) ',' = [""] := by decide
  have ht : trimSpace "" = "" := by decide
  simp only [substituteGen, hk, hp, hs, if_true, List.length_singleton, gt_iff_lt,
    Nat.lt_add_one, getD_singleton_empty, ht]

/-- One step of the scan for the closing pair. -/
theorem scanClose_cons (c x : Char) (xs : List Char) :
    scanClose c (x :: xs) =
      if x = c ∧ xs.head? = some c then some ([], xs.tail)
      else if x = '\n' then none
      else (scanClose c xs).map (fun p => (x :: p.1, p.2)) := by
  simp only [scanClose]
  split
  · rfl
  · split
    · rfl
    · cases scanClose c xs with
      | none => rfl
      | some p => rfl

/-- The first character of a text stays the first when text is set after it. -/
theorem head?_append_of_head? (xs t : List Char) (a : Char) (h : xs.head? = some a) :
    (xs ++ t).head? = some a := by
  cases xs with
  | nil => simp at h
  | cons y ys => simpa using h

/-- A token closed within a text is closed in the same place when text is set after it. -/
theorem scanClose_append (c : Char) (t : List Char) :
    ∀ (xs inner rest : List Char), scanClose c xs = some (inner, rest) →
      scanClose c (xs ++ t) = some (inner, rest ++ t) := by
  intro xs
  induction xs with
  | nil => intro inner rest h; simp [scanClose] at h
  | cons x xs ih =>
    intro inner rest h
    rw [scanClose_cons] at h
    rw [List.cons_append, scanClose_cons]
    by_cases hc : x = c ∧ xs.head? = some c
    · rw [if_pos hc] at h
      rw [if_pos ⟨hc.1, head?_append_of_head? xs t c hc.2⟩]
      simp only [Option.some.injEq, Prod.mk.injEq] at h ⊢
      refine ⟨h.1, ?_⟩
      rw [← h.2]
      cases xs with
      | nil => simp at hc
      | cons y ys => rfl
    · rw [if_neg hc] at h
      by_cases hn : x = '\n'
      · rw [if_pos hn] at h; cases h
      · rw [if_neg hn] at h
        cases hs : scanClose c xs with
        | none => rw [hs] at h; cases h
        | some p =>
          rw [hs] at h
          simp only [Option.map_some', Option.some.injEq, Prod.mk.injEq] at h
          have hc2 : ¬ (x = c ∧ (xs ++ t).head? = some c) := by
            intro h2
            cases xs with
            | nil => simp [scanClose] at hs
            | cons y ys => exact hc (by simpa using h2)
          rw [if_neg hc2, if_neg hn, ih p.1 p.2 hs]
          simp only [Option.map_some', Option.some.injEq, Prod.mk.injEq]
          exact ⟨h.1, by rw [← h.2]⟩

/-- A token cut off by a newline stays cut off when text is set after it. -/
theorem scanClose_killed (c : Char) (hcn : c ≠ '\n') (t : List Char) :
    ∀ (xs : List Char), scanClose c xs = none → runsOut c xs = false →
      scanClose c (xs ++ t) = none := by
  intro xs
  induction xs with
  | nil => intro _ h; simp [runsOut] at h
  | cons x xs ih =>
    intro h hr
    rw [scanClose_cons] at h
    simp only [runsOut] at hr
    rw [List.cons_append, scanClose_cons]
    by_cases hc : x = c ∧ xs.head? = some c
    · rw [if_pos hc] at h; cases h
    · rw [if_neg hc] at h hr
      by_cases hn : x = '\n'
      · have hc2 : ¬ (x = c ∧ (xs ++ t).head? = some c) := by
          intro h2
          exact hcn (h2.1 ▸ hn)
        rw [if_neg hc2, if_pos hn]
      · rw [if_neg hn] at h hr
        have hs : scanClose c xs = none := by
          cases hs : scanClose c xs with
          | none => rfl
          | some p => rw [hs] at h; cases h
        have hc2 : ¬ (x = c ∧ (xs ++ t).head? = some c) := by
          intro h2
          cases xs with
          | nil => simp [runsOut] at hr
          | cons y ys => exact hc (by simpa using h2)
        rw [if_neg hc2, if_neg hn, ih hs hr]
        rfl

/-- The pass over the empty text. -/
theorem replaceAllAux_nil {σ : Type} (o c : Char) (repl : String → σ → String × σ)
    (n : Nat) (g : σ) : replaceAllAux o c repl n [] g = ([], g) := by
  cases n <;> rfl

/-- One step of the pass. -/
theorem replaceAllAux_cons {σ : Type} (o c : Char) (repl : String → σ → String × σ)
    (n : Nat) (x : Char) (xs : List Char) (g : σ) :
    replaceAllAux o c repl (n + 1) (x :: xs) g =
      if x = o ∧ xs.head? = some o then
        match scanClose c xs.tail with
        | some (inner, rest) =>
          ((repl (String.mk (o :: o :: (inner ++ [c, c]))) g).1.data ++
            (replaceAllAux o c repl n rest (repl (String.mk (o :: o :: (inner ++ [c, c]))) g).2).1,
           (replaceAllAux o c repl n rest (repl (String.mk (o :: o :: (inner ++ [c, c]))) g).2).2)
        | none => (x :: (replaceAllAux o c repl n xs g).1, (replaceAllAux o c repl n xs g).2)
      else (x :: (replaceAllAux o c repl n xs g).1, (replaceAllAux o c repl n xs g).2) := by
  by_cases hp : x = o ∧ xs.head? = some o
  · simp only [replaceAllAux, if_pos hp]
  · simp only [replaceAllAux, if_neg hp]

/-- The pass over a settled text followed by more text is the pass over the settled text, then the pass over the rest from the state reached. -/
theorem replaceAllAux_settled_append {σ : Type} (o c : Char) (hcn : c ≠ '\n')
    (repl : String → σ → String × σ) (t : List Char) :
    ∀ (n : Nat) (a : List Char) (g : σ), a.length ≤ n → settledAux o c n a = true →
      ∀ m, (a ++ t).length ≤ m →
        replaceAllAux o c repl m (a ++ t) g =
          ((replaceAllAux o c repl n a g).1 ++
              (replaceAllAux o c repl t.length t (replaceAllAux o c repl n a g).2).1,
            (replaceAllAux o c repl t.length t (replaceAllAux o c repl n a g).2).2) := by
  intro n
  induction n with
  | zero =>
    intro a g ha _ m hm
    have : a = [] := List.length_eq_zero.mp (Nat.le_zero.mp ha)
    subst this
    simp only [List.nil_append] at hm ⊢
    rw [replaceAllAux_nil, replaceAllAux_fuel o c repl m t.length t g hm (Nat.le_refl _)]
    rfl
  | succ n ih =>
    intro a g ha hs m hm
    cases a with
    | nil =>
      simp only [List.nil_append] at hm ⊢
      rw [replaceAllAux_nil, replaceAllAux_fuel o c repl m t.length t g hm (Nat.le_refl _)]
      rfl
    | cons x xs =>
      cases m with
      | zero => simp at hm
      | succ m =>
        simp only [List.length_cons, Nat.add_le_add_iff_right] at ha
        simp only [List.cons_append, List.length_cons, Nat.add_le_add_iff_right] at hm
        rw [List.cons_append, replaceAllAux_cons, replaceAllAux_cons]
        simp only [settledAux] at hs
        by_cases hp : x = o ∧ xs.head? = some o
        · rw [if_pos hp] at hs
          rw [if_pos hp, if_pos ⟨hp.1, head?_append_of_head? xs t o hp.2⟩]
          have htail : (xs ++ t).tail = xs.tail ++ t := by
            cases xs with
            | nil => simp at hp
            | cons y ys => rfl
          have hlt : xs.tail.length ≤ xs.length := by simp
          rw [htail]
          cases hsc : scanClose c xs.tail with
          | some p =>
            obtain ⟨inner, rest⟩ := p
            rw [hsc] at hs
            simp only at hs
            have hl := scanClose_length c _ _ _ hsc
            rw [scanClose_append c t _ _ _ hsc]
            simp only
            rw [ih rest _ (by omega) hs m (by simp only [List.length_append] at hm ⊢; omega)]
            simp only [List.append_assoc]
          | none =>
            rw [hsc] at hs
            simp only at hs
            by_cases hr : runsOut c xs.tail = true
            · rw [if_pos hr] at hs; cases hs
            · rw [if_neg hr] at hs
              rw [scanClose_killed c hcn t _ hsc (by simpa using hr)]
              simp only
              rw [ih xs g ha hs m hm]
              simp only [List.cons_append]
        · rw [if_neg hp] at hs
          by_cases he : x = o ∧ xs.isEmpty = true
          · rw [if_pos he] at hs; cases hs
          · rw [if_neg he] at hs
            have hp2 : ¬ (x = o ∧ (xs ++ t).head? = some o) := by
              intro h2
              cases xs with
              | nil => exact he ⟨h2.1, rfl⟩
              | cons y ys => exact hp (by simpa using h2)
            rw [if_neg hp, if_neg hp2, ih xs g ha hs m hm]
            simp only [List.cons_append]

/-- The pass leaves a text without an opening pair as it is. -/
theorem plainText_pass {σ : Type} (o c : Char) (repl : String → σ → String × σ) :
    ∀ (cs : List Char) (n : Nat) (g : σ), plainText o cs = true →
      replaceAllAux o c repl n cs g = (cs, g) := by
  intro cs
  induction cs with
  | nil => intro n g _; exact replaceAllAux_nil o c repl n g
  | cons x xs ih =>
    intro n g h
    cases n with
    | zero => rfl
    | succ n =>
      rw [replaceAllAux_cons]
      simp only [plainText] at h
      by_cases hx : x = o
      · rw [if_pos hx] at h
        cases xs with
        | nil => cases h
        | cons y ys =>
          simp only [Bool.and_eq_true, decide_eq_true_eq] at h
          have hp : ¬ (x = o ∧ (y :: ys).head? = some o) := by
            intro h2
            exact h.1 (by simpa using h2.2)
          rw [if_neg hp, ih n g h.2]
      · rw [if_neg hx] at h
        have hp : ¬ (x = o ∧ xs.head? = some o) := fun h2 => hx h2.1
        rw [if_neg hp, ih n g h]

/-- A text without an opening pair that does not end in an opening character is settled. -/
theorem plainText_settled (o c : Char) :
    ∀ (cs : List Char) (n : Nat), cs.length ≤ n → plainText o cs = true →
      settledAux o c n cs = true := by
  intro cs
  induction cs with
  | nil => intro n _ _; cases n <;> rfl
  | cons x xs ih =>
    intro n hn h
    cases n with
    | zero => simp at hn
    | succ n =>
      simp only [List.length_cons, Nat.add_le_add_iff_right] at hn
      simp only [settledAux]
      simp only [plainText] at h
      by_cases hx : x = o
      · rw [if_pos hx] at h
        cases xs with
        | nil => cases h
        | cons y ys =>
          simp only [Bool.and_eq_true, decide_eq_true_eq] at h
          have hp : ¬ (x = o ∧ (y :: ys).head? = some o) := by
            intro h2
            exact h.1 (by simpa using h2.2)
          have he : ¬ (x = o ∧ (y :: ys).isEmpty = true) := by simp
          rw [if_neg hp, if_neg he]
          exact ih n hn h.2
      · rw [if_neg hx] at h
        have hp : ¬ (x = o ∧ xs.head? = some o) := fun h2 => hx h2.1
        have he : ¬ (x = o ∧ xs.isEmpty = true) := fun h2 => hx h2.1
        rw [if_neg hp, if_neg he]
        exact ih n hn h

/-- The pass over a settled text followed by more text, on strings. -/
theorem pass_append {σ : Type} (o c : Char) (hcn : c ≠ '\n') (repl : String → σ → String × σ)
    (a b : String) (g : σ) (ha : settled o c a = true) :
    replaceAllStringFunc o c repl (a ++ b) g =
      ((replaceAllStringFunc o c repl a g).1 ++
          (replaceAllStringFunc o c repl b (replaceAllStringFunc o c repl a g).2).1,
        (replaceAllStringFunc o c repl b (replaceAllStringFunc o c repl a g).2).2) := by
  unfold replaceAllStringFunc
  have hd : (a ++ b).data = a.data ++ b.data := String.data_append a b
  have hl : (a ++ b).length = (a.data ++ b.data).length := by rw [← hd]; rfl
  rw [hl, hd, replaceAllAux_settled_append o c hcn repl b.data a.length a.data g
    (Nat.le_refl _) ha _ (Nat.le_refl _)]
  apply Prod.ext
  · apply String.ext
    simp [String.data_append]
  · rfl

/-- The pass over a matched token followed by more text: the result of the replacement function on the token, not scanned again, then the pass over the rest. -/
theorem pass_token {σ : Type} (o c : Char) (repl : String → σ → String × σ)
    (inner post : String) (g : σ)
    (h : scanClose c (inner.data ++ c :: c :: post.data) = some (inner.data, post.data)) :
    replaceAllStringFunc o c repl (String.mk [o, o] ++ inner ++ String.mk [c, c] ++ post) g =
      ((repl (String.mk [o, o] ++ inner ++ String.mk [c, c]) g).1 ++
          (replaceAllStringFunc o c repl post
            (repl (String.mk [o, o] ++ inner ++ String.mk [c, c]) g).2).1,
        (replaceAllStringFunc o c repl post
            (repl (String.mk [o, o] ++ inner ++ String.mk [c, c]) g).2).2) := by
  have htok : String.mk [o, o] ++ inner ++ String.mk [c, c] =
      String.mk (o :: o :: (inner.data ++ [c, c])) := by
    apply String.ext
    simp [String.data_append]
  have hdata : (String.mk [o, o] ++ inner ++ String.mk [c, c] ++ post).data =
      o :: o :: (inner.data ++ c :: c :: post.data) := by
    simp [String.data_append]
  unfold replaceAllStringFunc
  have hlen : (String.mk [o, o] ++ inner ++ String.mk [c, c] ++ post).length =
      (o :: o :: (inner.data ++ c :: c :: post.data)).length := by
    rw [← hdata]; rfl
  rw [hlen, hdata, replaceAllAux_token_then _ _ _ _ _ _ h _ (Nat.le_refl _), ← htok]
  apply Prod.ext
  · apply String.ext
    simp [String.data_append]
  · rfl

/-- The pass leaves a string without an opening pair as it is. -/
theorem pass_plain {σ : Type} (o c : Char) (repl : String → σ → String × σ)
    (s : String) (g : σ) (h : plainText o s.data = true) :
    replaceAllStringFunc o c repl s g = (s, g) := by
  unfold replaceAllStringFunc
  rw [plainText_pass o c repl s.data _ g h]

/-- A string without an opening pair that does not end in an opening character is settled. -/
theorem settled_of_plainText (o c : Char) (s : String) (h : plainText o s.data = true) :
    settled o c s = true :=
  plainText_settled o c s.data _ (Nat.le_refl _) h

/-- The generator pass over a settled text followed by more text. -/
theorem substituteGenerators_append {σ : Type} (sys : Sys σ) (a b : String) (g : σ)
    (ha : settled '[' ']' a = true) :
    substituteGenerators sys (a ++ b) g =
      ((substituteGenerators sys a g).1 ++
          (substituteGenerators sys b (substituteGenerators sys a g).2).1,
        (substituteGenerators sys b (substituteGenerators sys a g).2).2) :=
  pass_append '[' ']' (by decide) (substituteGen sys) a b g ha

/-- The generator pass over a matched token followed by more text. -/
theorem substituteGenerators_token {σ : Type} (sys : Sys σ) (inner post : String) (g : σ)
    (h : scanClose ']' (inner.data ++ ']' :: ']' :: post.data) = some (inner.data, post.data)) :
    substituteGenerators sys ("[[" ++ inner ++ "]]" ++ post) g =
      ((substituteGen sys ("[[" ++ inner ++ "]]") g).1 ++
          (substituteGenerators sys post (substituteGen sys ("[[" ++ inner ++ "]]") g).2).1,
        (substituteGenerators sys post (substituteGen sys ("[[" ++ inner ++ "]]") g).2).2) :=
  pass_token '[' ']' (substituteGen sys) inner post g h

/-- The generator pass at a matched token that follows a settled text: the pass of the text before it, the output of the closure on the token, the pass of the text after it. -/
theorem substituteGenerators_at {σ : Type} (sys : Sys σ) (pre inner post : String) (g : σ)
    (hpre : settled '[' ']' pre = true)
    (h : scanClose ']' (inner.data ++ ']' :: ']' :: post.data) = some (inner.data, post.data)) :
    substituteGenerators sys (pre ++ ("[[" ++ inner ++ "]]") ++ post) g =
      ((substituteGenerators sys pre g).1 ++
          (substituteGen sys ("[[" ++ inner ++ "]]") (substituteGenerators sys pre g).2).1 ++
          (substituteGenerators sys post
            (substituteGen sys ("[[" ++ inner ++ "]]") (substituteGenerators sys pre g).2).2).1,
        (substituteGenerators sys post
            (substituteGen sys ("[[" ++ inner ++ "]]") (substituteGenerators sys pre g).2).2).2) := by
  rw [String.append_assoc, substituteGenerators_append sys pre _ g hpre,
    substituteGenerators_token sys inner post _ h]
  simp only [String.append_assoc]

/-- The variable pass over a settled text followed by more text. -/
theorem substituteVariables_append {σ : Type} (sys : Sys σ) (r : Runner) (a b : String)
    (ha : settled '\x7b' '\x7d' a = true) :
    substituteVariables sys r (a ++ b) =
      substituteVariables sys r a ++ substituteVariables sys r b := by
  unfold substituteVariables
  rw [pass_append '\x7b' '\x7d' (by decide) _ a b () ha]

/-- The variable pass over a matched token followed by more text. -/
theorem substituteVariables_token {σ : Type} (sys : Sys σ) (r : Runner) (inner post : String)
    (h : scanClose '\x7d' (inner.data ++ '\x7d' :: '\x7d' :: post.data)
      = some (inner.data, post.data)) :
    substituteVariables sys r ("\x7b\x7b" ++ inner ++ "\x7d\x7d" ++ post) =
      substituteVar sys r ("\x7b\x7b" ++ inner ++ "\x7d\x7d") ++ substituteVariables sys r post := by
  unfold substituteVariables
  exact congrArg Prod.fst (pass_token '\x7b' '\x7d'
    (fun m (u : Unit) => (substituteVar sys r m, u)) inner post () h)

/-- The variable pass at a matched token that follows a settled text: the pass of the text before it, the result of the closure on the token, the pass of the text after it. -/
theorem substituteVariables_at {σ : Type} (sys : Sys σ) (r : Runner) (pre inner post : String)
    (hpre : settled '\x7b' '\x7d' pre = true)
    (h : scanClose '\x7d' (inner.data ++ '\x7d' :: '\x7d' :: post.data)
      = some (inner.data, post.data)) :
    substituteVariables sys r (pre ++ ("\x7b\x7b" ++ inner ++ "\x7d\x7d") ++ post) =
      substituteVariables sys r pre ++ substituteVar sys r ("\x7b\x7b" ++ inner ++ "\x7d\x7d")
        ++ substituteVariables sys r post := by
  rw [String.append_assoc, substituteVariables_append sys r pre _ hpre,
    substituteVariables_token sys r inner post h]
  simp only [String.append_assoc]

/-- The variable pass leaves a text without an opening pair of braces as it is. -/
theorem substituteVariables_plain {σ : Type} (sys : Sys σ) (r : Runner) (s : String)
    (h : plainText '\x7b' s.data = true) : substituteVariables sys r s = s := by
  unfold substituteVariables
  rw [pass_plain _ _ _ s () h]

/-- The key of a token is its inner text without the spaces at its ends. -/
theorem matchKey_of_token (o c : Char) (inner : String) :
    matchKey (String.mk [o, o] ++ inner ++ String.mk [c, c]) = trimSpaces inner := by
  have htok : String.mk [o, o] ++ inner ++ String.mk [c, c] =
      String.mk (o :: o :: (inner.data ++ [c, c])) := by
    apply String.ext
    simp [String.data_append]
  rw [htok]
  have hs : slice (String.mk (o :: o :: (inner.data ++ [c, c])))
      2 ((String.mk (o :: o :: (inner.data ++ [c, c]))).length - 2) = inner := by
    show String.mk (((o :: o :: (inner.data ++ [c, c])).take
      ((o :: o :: (inner.data ++ [c, c])).length - 2)).drop 2) = inner
    rw [take_drop_token]
  unfold matchKey
  rw [hs]

/-- The variable pass over three texts in a row, the first two settled. -/
theorem substituteVariables_three {σ : Type} (sys : Sys σ) (r : Runner) (a b c : String)
    (ha : settled '\x7b' '\x7d' a = true) (hb : settled '\x7b' '\x7d' b = true) :
    substituteVariables sys r (a ++ b ++ c) =
      substituteVariables sys r a ++ substituteVariables sys r b
        ++ substituteVariables sys r c := by
  rw [String.append_assoc a b c, substituteVariables_append sys r a _ ha,
    substituteVariables_append sys r b c hb, ← String.append_assoc]

/-- `substituteMap` keeps the keys of a mapping, in their order. -/
theorem substituteMap_keys {σ : Type} (sys : Sys σ) (r : Runner) :
    ∀ (m : List (String × Value)) (g : σ),
      (substituteMap sys r m g).1.map Prod.fst = m.map Prod.fst := by
  intro m
  induction m with
  | nil => intro g; simp [substituteMap]
  | cons kv rest ih =>
    intro g
    obtain ⟨k, v⟩ := kv
    simp [substituteMap, ih]

/-! ## The claims -/

/-- Claim C1.  Precedence of the variable pass of `substitute`.  Let the text
that the variable pass receives (the result of the generator pass on the
template) hold a variable token with inner text `inner`, after a text `pre` in
which no variable token is left open; the token is any that the pattern
matches there: the lazy run after its opening pair ends at its closing pair.
Let `key` be `inner` without the spaces at its ends.  Then `substitute` returns the variable pass of `pre`, the
replacement of the token, and the variable pass of the text after it, where the
replacement is: the value of the OS environment variable `key` when it exists,
whatever `Environment` and `State` hold; otherwise the default text form of
`Environment[key]` when `key` is a key of `Environment`, whatever `State`
holds; and only when neither holds, for a key of more than one dotted segment
whose first segment is a request in `State`, what `getValueFromMap` returns on
the remaining segments; in every other case the token as written. -/
theorem substitute_variable_precedence {σ : Type} (sys : Sys σ) (r : Runner)
    (s pre inner post : String) (g : σ)
    (hs : (substituteGenerators sys s g).1 = pre ++ ("\x7b\x7b" ++ inner ++ "\x7d\x7d") ++ post)
    (hpre : settled '\x7b' '\x7d' pre = true)
    (hinner : scanClose '\x7d' (inner.data ++ '\x7d' :: '\x7d' :: post.data)
      = some (inner.data, post.data)) :
    (∀ val, sys.LookupEnv (trimSpaces inner) = some val →
      substitute sys r s g =
        (substituteVariables sys r pre ++ val ++ substituteVariables sys r post,
          (substituteGenerators sys s g).2)) ∧
    (sys.LookupEnv (trimSpaces inner) = none →
      ∀ val, r.Environment.lookup (trimSpaces inner) = some val →
        substitute sys r s g =
          (substituteVariables sys r pre ++ fmtV val ++ substituteVariables sys r post,
            (substituteGenerators sys s g).2)) ∧
    (sys.LookupEnv (trimSpaces inner) = none →
      r.Environment.lookup (trimSpaces inner) = none →
      (∀ res, (split (trimSpaces inner) '.').length > 1 →
        r.State.lookup ((split (trimSpaces inner) '.').headD "") = some res →
        substitute sys r s g =
          (substituteVariables sys r pre
              ++ getValueFromMap res (split (trimSpaces inner) '.').tail
              ++ substituteVariables sys r post,
            (substituteGenerators sys s g).2)) ∧
      ((split (trimSpaces inner) '.').length ≤ 1 ∨
          r.State.lookup ((split (trimSpaces inner) '.').headD "") = none →
        substitute sys r s g =
          (substituteVariables sys r pre ++ ("\x7b\x7b" ++ inner ++ "\x7d\x7d")
              ++ substituteVariables sys r post,
            (substituteGenerators sys s g).2))) := by
  have hk : matchKey ("\x7b\x7b" ++ inner ++ "\x7d\x7d") = trimSpaces inner :=
    matchKey_of_token '\x7b' '\x7d' inner
  have hsub : substitute sys r s g =
      (substituteVariables sys r pre ++ substituteVar sys r ("\x7b\x7b" ++ inner ++ "\x7d\x7d")
          ++ substituteVariables sys r post, (substituteGenerators sys s g).2) := by
    simp only [substitute, hs, substituteVariables_at sys r pre inner post hpre hinner]
  refine ⟨?_, ?_, ?_⟩
  · intro val h
    rw [hsub]
    simp [substituteVar, hk, h]
  · intro h val h2
    rw [hsub]
    simp [substituteVar, hk, h, h2]
  · intro h h2
    refine ⟨?_, ?_⟩
    · intro res hl hst
      rw [hsub]
      simp only [substituteVar, hk, h, h2, hl, if_true, hst]
    · intro hc
      rw [hsub]
      simp only [substituteVar, hk, h, h2]
      split
      · rcases hc with hc | hc
        · omega
        · rw [hc]
      · rfl

/-- Witness for claim C1: an OS variable in the middle of a template that also
holds a generator token, then a key of `Environment`, a path through `State`,
and a key that nothing resolves. -/
theorem substitute_variable_precedence_witness :
    substitute sampleSys sampleRunner
        "http://\x7b\x7b host \x7d\x7d:\x7b\x7bport\x7d\x7d/[[email]]?h=\x7b\x7bHOME\x7d\x7d&t=\x7b\x7blogin.token\x7d\x7d&u=\x7b\x7bnosuch.x\x7d\x7d" 0
      = ("http://example.org:8080/a@b.c?h=/root&t=abc123&u=\x7b\x7bnosuch.x\x7d\x7d", 1) ∧
    substitute sampleSys sampleRunner "\x7b\x7bport\x7d\x7d" 0 = ("8080", 0) ∧
    substitute sampleSys sampleRunner "\x7b\x7blogin.token\x7d\x7d!" 0 = ("abc123!", 0) ∧
    substitute sampleSys sampleRunner "\x7b\x7bnosuch.x\x7d\x7d" 0
      = ("\x7b\x7bnosuch.x\x7d\x7d", 0) :=
  ⟨(substitute_variable_precedence sampleSys sampleRunner
      "http://\x7b\x7b host \x7d\x7d:\x7b\x7bport\x7d\x7d/[[email]]?h=\x7b\x7bHOME\x7d\x7d&t=\x7b\x7blogin.token\x7d\x7d&u=\x7b\x7bnosuch.x\x7d\x7d"
      "http://\x7b\x7b host \x7d\x7d:\x7b\x7bport\x7d\x7d/a@b.c?h=" "HOME"
      "&t=\x7b\x7blogin.token\x7d\x7d&u=\x7b\x7bnosuch.x\x7d\x7d" 0
      (by decide) (by decide) (by decide)).1 "/root" (by decide),
   (substitute_variable_precedence sampleSys sampleRunner "\x7b\x7bport\x7d\x7d"
      "" "port" "" 0 (by decide) (by decide) (by decide)).2.1 (by decide) (.int 8080) (by rfl),
   ((substitute_variable_precedence sampleSys sampleRunner "\x7b\x7blogin.token\x7d\x7d!"
      "" "login.token" "!" 0 (by decide) (by decide) (by decide)).2.2 (by decide) (by rfl)).1
      (.obj [("token", .str "abc123")]) (by decide) (by rfl),
   ((substitute_variable_precedence sampleSys sampleRunner "\x7b\x7bnosuch.x\x7d\x7d"
      "" "nosuch.x" "" 0 (by decide) (by decide) (by decide)).2.2 (by decide) (by rfl)).2
      (Or.inr (by rfl))⟩

/-- Claim C2.  For a request name `n` stored in `State` and a path of segments
`ps` (at least one) each of which resolves through the stored value (a key
present in a mapping, a decimal index below the length of a sequence), when
the key `n.p1...pk` is neither an OS environment variable nor an `Environment`
key, `substitute` on the token `{{n.p1...pk}}` returns the default text form of
the value reached and draws nothing from the random source.  The token is
taken to be well formed: no segment contains a dot, and the key is read back as
written (`plainKey`). -/
theorem substitute_state_path {σ : Type} (sys : Sys σ) (r : Runner) (n : String)
    (ps : List String) (res v : Value) (g : σ)
    (hps : ps ≠ [])
    (hseg : ∀ s ∈ n :: ps, ∀ x ∈ s.data, x ≠ '.')
    (hk : plainKey (dotted (n :: ps)))
    (hos : sys.LookupEnv (dotted (n :: ps)) = none)
    (henv : r.Environment.lookup (dotted (n :: ps)) = none)
    (hn : r.State.lookup n = some res)
    (hres : resolvePath res ps = some v) :
    substitute sys r ("\x7b\x7b" ++ dotted (n :: ps) ++ "\x7d\x7d") g = (fmtV v, g) := by
  rw [substitute_token sys r _ g hk]
  have hm : matchKey ("\x7b\x7b" ++ dotted (n :: ps) ++ "\x7d\x7d") = dotted (n :: ps) := by
    rw [token_eq]; exact matchKey_token _ _ _ hk.2
  have hsp := split_dotted (n :: ps) (by simp) hseg
  rw [substituteVar_state sys r _ n ps (by rw [hm]; exact hos) (by rw [hm]; exact henv)
    (by rw [hm]; exact hsp)]
  simp [hps, hn, getValueFromMap_resolve res ps v hres]

/-- Witness for claim C2: with `State` holding `login = {"token": "abc123"}`,
the token `{{login.token}}` resolves to `abc123`; a path through a mapping and
a sequence reaches the number at index 1; and a 64-bit identifier and a
fraction are given in the text form Go gives a `float64`. -/
theorem substitute_state_path_witness :
    substitute sampleSys sampleRunner "\x7b\x7blogin.token\x7d\x7d" 0 = ("abc123", 0) ∧
    substitute sampleSys sampleRunner "\x7b\x7blist.items.1\x7d\x7d" 0 = ("1e+06", 0) ∧
    substitute sampleSys idRunner "\x7b\x7br.id\x7d\x7d" 0 = ("1.8446744073709552e+19", 0) ∧
    substitute sampleSys idRunner "\x7b\x7br.ratio\x7d\x7d" 0 = ("0.25", 0) :=
  ⟨substitute_state_path sampleSys sampleRunner "login" ["token"]
    (.obj [("token", .str "abc123")]) (.str "abc123") 0 (by decide) (by decide)
    ⟨by decide, by decide⟩ rfl rfl rfl rfl,
   substitute_state_path sampleSys sampleRunner "list" ["items", "1"]
    (.obj [("items", .arr [.str "x", .float 1000000])]) (.float 1000000) 0 (by decide)
    (by decide) ⟨by decide, by decide⟩ rfl rfl rfl rfl,
   substitute_state_path sampleSys idRunner "r" ["id"]
    (.obj [("id", .float (.finite false "18446744073709552".data 20)),
      ("ratio", .float (.finite false "25".data 0))])
    (.float (.finite false "18446744073709552".data 20)) 0 (by decide)
    (by decide) ⟨by decide, by decide⟩ rfl rfl rfl rfl,
   substitute_state_path sampleSys idRunner "r" ["ratio"]
    (.obj [("id", .float (.finite false "18446744073709552".data 20)),
      ("ratio", .float (.finite false "25".data 0))])
    (.float (.finite false "25".data 0)) 0 (by decide)
    (by decide) ⟨by decide, by decide⟩ rfl rfl rfl rfl⟩

/-- Claim C3.  For a JSON parser whose results are never larger than the text
parsed, `decodeRecursive` returns on every value (whenever the bound exceeds the
weight of the value), its result is the decoded form of the value by the rule of
the specification (a decodable string leaf replaced by the decoded form of its
parse, every other string leaf and every other scalar left as it was), and no
string leaf of the result is decodable, i.e. none both has trimmed content
delimited by a matching bracket pair and parses as JSON.  In particular, when
the parser reads the body `{"a":"{\"b\":1}"}` and the text of its field as JSON
does, the body decodes to a value on which `getValueFromMap` with path
`[a, b]` returns `1`. -/
theorem decodeRecursive_fully_decodes (u : String → Option Value)
    (hshrink : ∀ s d, u s = some d → d.weight ≤ s.length) (v : Value) :
    (∃ r, (∀ fuel, v.weight < fuel → decodeRecursive u fuel v = some r) ∧
        DecodesTo u v r ∧ fullyDecoded u r) ∧
    (u sampleBody = some (.obj [("a", .str sampleInner)]) →
      u sampleInner = some (.obj [("b", .float 1)]) →
      ∃ r, (∀ fuel, 4 ≤ fuel → decodeBody u fuel sampleBody = some r) ∧
        getValueFromMap r ["a", "b"] = "1") := by
  refine ⟨decode_spec_exists u hshrink (v.weight + 1) v (Nat.lt_succ_self _), ?_⟩
  intro hb hi
  refine ⟨.obj [("a", .obj [("b", .float 1)])], ?_, by decide⟩
  intro fuel hf
  obtain ⟨f, rfl⟩ : ∃ f, fuel = f + 4 := ⟨fuel - 4, by omega⟩
  have hl : looksLikeJSON sampleInner = true := by decide
  simp [decodeBody, hb, decodeRecursive, mapOpt, hl, hi]

/-- Witness for claim C3, on the sample parser and the body of the scenario. -/
theorem decodeRecursive_fully_decodes_witness :
    (∃ r, (∀ fuel, (Value.str sampleBody).weight < fuel →
          decodeRecursive sampleUnmarshal fuel (.str sampleBody) = some r) ∧
        DecodesTo sampleUnmarshal (.str sampleBody) r ∧ fullyDecoded sampleUnmarshal r) ∧
    (∃ r, (∀ fuel, 4 ≤ fuel → decodeBody sampleUnmarshal fuel sampleBody = some r) ∧
        getValueFromMap r ["a", "b"] = "1") :=
  ⟨(decodeRecursive_fully_decodes sampleUnmarshal sampleUnmarshal_shrinks (.str sampleBody)).1,
   (decodeRecursive_fully_decodes sampleUnmarshal sampleUnmarshal_shrinks (.str sampleBody)).2
      rfl rfl⟩

/-- Claim C4.  Whatever the state file holds (nothing readable, unparsable
text, a mapping), when the file can be written and the codec reads back the
two documents written: after `saveState` for environment A and then for a different
environment B, `loadState` returns A's state for A and B's state for B; and
`saveState` for one environment sets that environment's subtree in the file
and leaves the subtree, and the loaded state, of every other environment
unchanged. -/
theorem saveState_frame {β : Type} (codec : Codec β) (disk : Disk β)
    (hw : disk.writable = true) (rA rB : Runner) (hAB : rA.EnvName ≠ rB.EnvName)
    (hA : readsBack codec (mapSet (storedStates codec disk) rA.EnvName rA.State))
    (hB : readsBack codec
      (mapSet (mapSet (storedStates codec disk) rA.EnvName rA.State) rB.EnvName rB.State)) :
    loadState codec rA.EnvName (saveState codec rB (saveState codec rA disk)) = rA.State ∧
    loadState codec rB.EnvName (saveState codec rB (saveState codec rA disk)) = rB.State ∧
    (storedStates codec (saveState codec rA disk)).lookup rA.EnvName = some rA.State ∧
    (∀ other, other ≠ rA.EnvName →
      (storedStates codec (saveState codec rA disk)).lookup other =
        (storedStates codec disk).lookup other ∧
      loadState codec other (saveState codec rA disk) = loadState codec other disk) := by
  obtain ⟨h1, hw1⟩ := storedStates_saveState codec rA disk hw hA
  obtain ⟨h2, _⟩ := storedStates_saveState codec rB _ hw1 (by rw [h1]; exact hB)
  refine ⟨?_, ?_, ?_, ?_⟩
  · rw [loadState_eq, h2, lookup_mapSet_ne _ _ _ _ hAB, h1, lookup_mapSet_self]; rfl
  · rw [loadState_eq, h2, lookup_mapSet_self]; rfl
  · rw [h1, lookup_mapSet_self]
  · intro other ho
    have : (storedStates codec (saveState codec rA disk)).lookup other =
        (storedStates codec disk).lookup other := by
      rw [h1, lookup_mapSet_ne _ _ _ _ ho]
    exact ⟨this, by rw [loadState_eq, loadState_eq, this]⟩

/-- Witness for claim C4: two saves on a missing file with the sample codec. -/
theorem saveState_frame_witness :
    loadState sampleCodec "dev"
        (saveState sampleCodec { sampleRunner with EnvName := "prod", State := [] }
          (saveState sampleCodec sampleRunner ⟨none, true⟩)) = sampleRunner.State ∧
    loadState sampleCodec "prod"
        (saveState sampleCodec { sampleRunner with EnvName := "prod", State := [] }
          (saveState sampleCodec sampleRunner ⟨none, true⟩)) = [] :=
  have h := saveState_frame sampleCodec ⟨none, true⟩ rfl sampleRunner
    { sampleRunner with EnvName := "prod", State := [] } (by decide)
    (sampleCodec_readsBack _) (sampleCodec_readsBack _)
  ⟨h.1, h.2.1⟩

/-- Counterexample to claim C5 as stated: the body holds, under `inner`, a
mapping with the integer key 1 and the string leaf `{{host}}`.  `substitute`
of that leaf is `example.org`, yet `substituteMap` returns the body as it is,
the leaf unsubstituted, where the substitution over every mapping gives
`example.org`. -/
theorem substituteMap_general_map_counterexample :
    substitute sampleSys sampleRunner "\x7b\x7bhost\x7d\x7d" 0 = ("example.org", 0) ∧
    substituteMap sampleSys sampleRunner sampleGeneralBody 0 = (sampleGeneralBody, 0) ∧
    sampleGeneralBody = [("inner", .gmap [(.int 1, .str "\x7b\x7bhost\x7d\x7d")])] ∧
    mapStringsFields (substitute sampleSys sampleRunner) sampleGeneralBody 0
      = ([("inner", .gmap [(.int 1, .str "example.org")])], 0) ∧
    substituteMap sampleSys sampleRunner sampleGeneralBody 0
      ≠ mapStringsFields (substitute sampleSys sampleRunner) sampleGeneralBody 0 := by
  refine ⟨by decide, by rfl, by rfl, by rfl, ?_⟩
  intro h
  have h1 : substituteMap sampleSys sampleRunner sampleGeneralBody 0 = (sampleGeneralBody, 0) := by
    rfl
  have h2 : mapStringsFields (substitute sampleSys sampleRunner) sampleGeneralBody 0
      = ([("inner", .gmap [(.int 1, .str "example.org")])], 0) := by rfl
  rw [h1, h2] at h
  simp [sampleGeneralBody] at h

/-- Claim C5 as amended.  For every nested body structure in which every
mapping has string keys, `substituteMap` is the substitution of the
specification: every string leaf is replaced by `substitute` of that leaf
(leaves taken from left to right, the random state threaded).  For every body
structure the result has the shape of the input (the same keys at every
mapping, the same length and order at every sequence, every leaf that is not a
string unchanged) and the same keys, which are not substituted; and a mapping
with a key that is not a string is passed through as it is. -/
theorem substituteMap_string_keyed {σ : Type} (sys : Sys σ) (r : Runner)
    (m : List (String × Value)) (g : σ) :
    (stringKeyedFields m = true →
      substituteMap sys r m g = mapStringsFields (substitute sys r) m g) ∧
    shapeFields (substituteMap sys r m g).1 = shapeFields m ∧
    (substituteMap sys r m g).1.map Prod.fst = m.map Prod.fst ∧
    (∀ entries, substituteValue sys r (.gmap entries) g = (.gmap entries, g)) := by
  refine ⟨fun h => substituteMap_eq_mapStrings sys r m g h,
    shapeFields_substituteMap sys r m g, substituteMap_keys sys r m g, ?_⟩
  intro entries
  simp [substituteValue]

/-- Witness for claim C5 as amended: a body of string-keyed mappings and a
sequence, with a variable token, a generator token and a token in a key. -/
theorem substituteMap_string_keyed_witness :
    substituteMap sampleSys sampleRunner
        [("u", .str "\x7b\x7bhost\x7d\x7d"), ("n", .int 3),
          ("l", .arr [.bool true, .str "[[email]]", .null,
            .obj [("\x7b\x7bhost\x7d\x7d", .str "x")]])] 0
      = mapStringsFields (substitute sampleSys sampleRunner)
        [("u", .str "\x7b\x7bhost\x7d\x7d"), ("n", .int 3),
          ("l", .arr [.bool true, .str "[[email]]", .null,
            .obj [("\x7b\x7bhost\x7d\x7d", .str "x")]])] 0 ∧
    (substituteMap sampleSys sampleRunner
        [("u", .str "\x7b\x7bhost\x7d\x7d"), ("n", .int 3),
          ("l", .arr [.bool true, .str "[[email]]", .null,
            .obj [("\x7b\x7bhost\x7d\x7d", .str "x")]])] 0)
      = ([("u", .str "example.org"), ("n", .int 3),
          ("l", .arr [.bool true, .str "a@b.c", .null,
            .obj [("\x7b\x7bhost\x7d\x7d", .str "x")]])], 1) :=
  ⟨(substituteMap_string_keyed sampleSys sampleRunner _ 0).1 (by decide), by rfl⟩

/-- Claim C6, evaluated where the code departs from it: on a mapping without
the key `b`, the path `[b]` gives the text `<nil>` and not the sentinel for
`b`, and the path `[b, c]` gives the sentinel for `c`, the segment after the
one that failed. -/
theorem getValueFromMap_missing_key :
    getValueFromMap (.obj [("a", .float 1)]) ["b"] = "<nil>" ∧
    getValueFromMap (.obj [("a", .float 1)]) ["b"] ≠ missing "b" ∧
    getValueFromMap (.obj [("a", .float 1)]) ["b", "c"] = missing "c" := by
  decide

/-- Counterexample to claim C7 as stated: the request `nosuch` is absent from
`State` and the key is neither an OS variable nor an `Environment` key, yet
`substitute` returns the token as written, which is no sentinel for `nosuch`
nor for `token`. -/
theorem substitute_absent_request_counterexample :
    sampleRunner.State.lookup "nosuch" = none ∧
    sampleSys.LookupEnv "nosuch.token" = none ∧
    sampleRunner.Environment.lookup "nosuch.token" = none ∧
    (substitute sampleSys sampleRunner "\x7b\x7bnosuch.token\x7d\x7d" 0).1
      = "\x7b\x7bnosuch.token\x7d\x7d" ∧
    (substitute sampleSys sampleRunner "\x7b\x7bnosuch.token\x7d\x7d" 0).1 ≠ missing "nosuch" ∧
    (substitute sampleSys sampleRunner "\x7b\x7bnosuch.token\x7d\x7d" 0).1 ≠ missing "token" := by
  refine ⟨rfl, rfl, rfl, ?_, ?_, ?_⟩ <;> decide

/-- Claim C7 as amended.  For a well-formed token whose first segment names a
request absent from `State`, and whose key is neither an OS environment variable
nor an `Environment` key, `substitute` returns the token text unchanged (no
sentinel is produced) and draws nothing from the random source. -/
theorem substitute_absent_request {σ : Type} (sys : Sys σ) (r : Runner) (n : String)
    (ps : List String) (g : σ)
    (hseg : ∀ s ∈ n :: ps, ∀ x ∈ s.data, x ≠ '.')
    (hk : plainKey (dotted (n :: ps)))
    (hos : sys.LookupEnv (dotted (n :: ps)) = none)
    (henv : r.Environment.lookup (dotted (n :: ps)) = none)
    (hn : r.State.lookup n = none) :
    substitute sys r ("\x7b\x7b" ++ dotted (n :: ps) ++ "\x7d\x7d") g =
      ("\x7b\x7b" ++ dotted (n :: ps) ++ "\x7d\x7d", g) := by
  rw [substitute_token sys r _ g hk]
  have hm : matchKey ("\x7b\x7b" ++ dotted (n :: ps) ++ "\x7d\x7d") = dotted (n :: ps) := by
    rw [token_eq]; exact matchKey_token _ _ _ hk.2
  have hsp := split_dotted (n :: ps) (by simp) hseg
  rw [substituteVar_state sys r _ n ps (by rw [hm]; exact hos) (by rw [hm]; exact henv)
    (by rw [hm]; exact hsp)]
  simp [hn]

/-- Witness for claim C7 as amended. -/
theorem substitute_absent_request_witness :
    substitute sampleSys sampleRunner "\x7b\x7bnosuch.token\x7d\x7d" 0
      = ("\x7b\x7bnosuch.token\x7d\x7d", 0) :=
  substitute_absent_request sampleSys sampleRunner "nosuch" ["token"] 0 (by decide)
    ⟨by decide, by decide⟩ rfl rfl rfl

/-- Claim C8, evaluated where the code departs from it: both requests are
declared and the list names `b` before `a`, yet `ExecuteRequests` executes `a`
before `b` (the network calls are logged in that order), while `ExecuteGroup`
on a group that names `b` before `a` does execute `b` before `a`. -/
theorem ExecuteRequests_ignores_list_order :
    (split "b,a" ',').map trimSpace = ["b", "a"] ∧
    (ExecuteRequests sampleExec sampleRunner "b,a" []).executed = ["a", "b"] ∧
    (ExecuteRequests sampleExec sampleRunner "b,a" []).world = ["a", "b"] ∧
    (ExecuteRequests sampleExec sampleRunner "b,a" []).err = none ∧
    sampleRunner.Config.Groups.lookup "all" = some ["b", "a"] ∧
    (ExecuteGroup sampleExec sampleRunner "all" []).executed = ["b", "a"] ∧
    (ExecuteGroup sampleExec sampleRunner "all" []).err = none := by
  decide

/-- Claim C9, evaluated where the code departs from it: with request `a`
declared and `nosuch` not, the list `a,nosuch` and the group `[a, nosuch]` both
have `executeRequest` called for `a` (one network call is logged) before the
not-found error is returned. -/
theorem ExecuteRequests_runs_before_not_found :
    (ExecuteRequests sampleExec sampleRunner "a,nosuch" []).executed = ["a"] ∧
    (ExecuteRequests sampleExec sampleRunner "a,nosuch" []).world = ["a"] ∧
    (ExecuteRequests sampleExec sampleRunner "a,nosuch" []).err =
      some (.requestsNotFound ["nosuch"]) ∧
    (ExecuteGroup sampleExec sampleRunner "broken" []).executed = ["a"] ∧
    (ExecuteGroup sampleExec sampleRunner "broken" []).world = ["a"] ∧
    (ExecuteGroup sampleExec sampleRunner "broken" []).err =
      some (.requestsNotFound ["nosuch"]) := by
  decide

/-- Claim C10.  The generator pass of `substitute` at a generator token whose
tag (the inner text without the spaces at its ends) does not start with
`oneof:`, after a text `pre` in which no generator token is left open; the
token is any that the pattern matches there: the lazy run after its opening
pair ends at its closing pair.  The pass returns its result on `pre`, then the
output of the generator registered under exactly the tag when there is one,
otherwise the output of the generator registered under `random_` followed by
the tag when there is one, otherwise the token as written, then its result on
the text after the token; and `substitute` returns the variable pass of that
text. -/
theorem substitute_generator_registry {σ : Type} (sys : Sys σ) (r : Runner)
    (pre inner post : String) (g : σ) (p : String × σ)
    (hp : substituteGenerators sys pre g = p)
    (hpre : settled '[' ']' pre = true)
    (hinner : scanClose ']' (inner.data ++ ']' :: ']' :: post.data)
      = some (inner.data, post.data))
    (htag : hasPrefix (trimSpaces inner) "oneof:" = false) :
    (∀ gen, sys.Generators (trimSpaces inner) = some gen →
      substituteGenerators sys (pre ++ ("[[" ++ inner ++ "]]") ++ post) g =
        (p.1 ++ (gen p.2).1 ++ (substituteGenerators sys post (gen p.2).2).1,
          (substituteGenerators sys post (gen p.2).2).2) ∧
      substitute sys r (pre ++ ("[[" ++ inner ++ "]]") ++ post) g =
        (substituteVariables sys r
            (p.1 ++ (gen p.2).1 ++ (substituteGenerators sys post (gen p.2).2).1),
          (substituteGenerators sys post (gen p.2).2).2)) ∧
    (sys.Generators (trimSpaces inner) = none →
      ∀ gen, sys.Generators ("random_" ++ trimSpaces inner) = some gen →
        substituteGenerators sys (pre ++ ("[[" ++ inner ++ "]]") ++ post) g =
          (p.1 ++ (gen p.2).1 ++ (substituteGenerators sys post (gen p.2).2).1,
            (substituteGenerators sys post (gen p.2).2).2) ∧
        substitute sys r (pre ++ ("[[" ++ inner ++ "]]") ++ post) g =
          (substituteVariables sys r
              (p.1 ++ (gen p.2).1 ++ (substituteGenerators sys post (gen p.2).2).1),
            (substituteGenerators sys post (gen p.2).2).2)) ∧
    (sys.Generators (trimSpaces inner) = none →
      sys.Generators ("random_" ++ trimSpaces inner) = none →
        substituteGenerators sys (pre ++ ("[[" ++ inner ++ "]]") ++ post) g =
          (p.1 ++ ("[[" ++ inner ++ "]]") ++ (substituteGenerators sys post p.2).1,
            (substituteGenerators sys post p.2).2) ∧
        substitute sys r (pre ++ ("[[" ++ inner ++ "]]") ++ post) g =
          (substituteVariables sys r
              (p.1 ++ ("[[" ++ inner ++ "]]") ++ (substituteGenerators sys post p.2).1),
            (substituteGenerators sys post p.2).2)) := by
  subst hp
  have hk : matchKey ("[[" ++ inner ++ "]]") = trimSpaces inner :=
    matchKey_of_token '[' ']' inner
  have hat := substituteGenerators_at sys pre inner post g hpre hinner
  have hclo : ∀ g2, substituteGen sys ("[[" ++ inner ++ "]]") g2 =
      lookupGenerator sys (trimSpaces inner) ("[[" ++ inner ++ "]]") g2 := by
    intro g2
    simp [substituteGen, hk, htag]
  refine ⟨?_, ?_, ?_⟩
  · intro gen h
    have ho : substituteGen sys ("[[" ++ inner ++ "]]") (substituteGenerators sys pre g).2 =
        gen (substituteGenerators sys pre g).2 := by
      rw [hclo]; simp [lookupGenerator, h]
    rw [ho] at hat
    exact ⟨hat, by simp only [substitute, hat]⟩
  · intro h gen h2
    have ho : substituteGen sys ("[[" ++ inner ++ "]]") (substituteGenerators sys pre g).2 =
        gen (substituteGenerators sys pre g).2 := by
      rw [hclo]; simp [lookupGenerator, h, h2]
    rw [ho] at hat
    exact ⟨hat, by simp only [substitute, hat]⟩
  · intro h h2
    have ho : substituteGen sys ("[[" ++ inner ++ "]]") (substituteGenerators sys pre g).2 =
        ("[[" ++ inner ++ "]]", (substituteGenerators sys pre g).2) := by
      rw [hclo]; simp [lookupGenerator, h, h2]
    rw [ho] at hat
    exact ⟨hat, by simp only [substitute, hat]⟩

/-- Witness for claim C10: a tag registered under the `random_` prefix, a tag
registered as it is and a tag that is not registered, in one template and one
by one. -/
theorem substitute_generator_registry_witness :
    substitute sampleSys sampleRunner "a=[[tag]]&to=[[ email ]]&x=[[nope]]" 0
      = ("a=T&to=a@b.c&x=[[nope]]", 2) ∧
    substitute sampleSys sampleRunner "[[tag]]" 0 = ("T", 1) ∧
    substitute sampleSys sampleRunner "x=[[nope]]" 0 = ("x=[[nope]]", 0) :=
  ⟨((substitute_generator_registry sampleSys sampleRunner "a=[[tag]]&to=" " email " "&x=[[nope]]"
      0 ("a=T&to=", 1) (by decide) (by decide) (by decide) (by decide)).1 _ rfl).2,
   ((substitute_generator_registry sampleSys sampleRunner "" "tag" ""
      0 ("", 0) (by decide) (by decide) (by decide) (by decide)).2.1 rfl _ rfl).2,
   ((substitute_generator_registry sampleSys sampleRunner "x=" "nope" ""
      0 ("x=", 0) (by decide) (by decide) (by decide) (by decide)).2.2 rfl rfl).2⟩

/-- Counterexample to claim C11 as stated: the text inserted for the resolved
span is the variable token `{{host}}`, once as the chosen `oneof:` literal and
once as the output of a registry generator; the variable pass then resolves it,
and the result holds no opening brace, so the inserted text does not appear in
it. -/
theorem substitute_generator_output_counterexample :
    substituteGen sampleSys "[[oneof: \x7b\x7bhost\x7d\x7d]]" 0 = ("\x7b\x7bhost\x7d\x7d", 1) ∧
    substitute sampleSys sampleRunner "[[oneof: \x7b\x7bhost\x7d\x7d]]" 0 = ("example.org", 1) ∧
    substituteGen braceSys "[[var]]" 0 = ("\x7b\x7bhost\x7d\x7d", 1) ∧
    substitute braceSys sampleRunner "[[var]]" 0 = ("example.org", 1) ∧
    (∀ x ∈ (substitute sampleSys sampleRunner "[[oneof: \x7b\x7bhost\x7d\x7d]]" 0).1.data,
      x ≠ '\x7b') ∧
    (∀ x ∈ (substitute braceSys sampleRunner "[[var]]" 0).1.data, x ≠ '\x7b') := by
  decide

/-- Claim C11 as amended.  For every environment and state and every template
that holds a generator token after a text in which no generator token is left
open (the token is any that the pattern matches there: the lazy run after its
opening pair ends at its closing pair): the generator pass puts the output of the closure in the
place of the token and does not scan that output again; `substitute` returns
the variable pass of the whole text so obtained, the inserted text included.
When no variable token is left open where the inserted text begins, nor at its
end, the result holds the variable pass of the inserted text in its place; it
holds the inserted text verbatim when that text has no opening pair of braces
and does not end in an opening brace. -/
theorem substitute_generator_output {σ : Type} (sys : Sys σ) (r : Runner)
    (pre inner post : String) (g : σ) (p out rest : String × σ)
    (hp : substituteGenerators sys pre g = p)
    (hout : substituteGen sys ("[[" ++ inner ++ "]]") p.2 = out)
    (hrest : substituteGenerators sys post out.2 = rest)
    (hpre : settled '[' ']' pre = true)
    (hinner : scanClose ']' (inner.data ++ ']' :: ']' :: post.data)
      = some (inner.data, post.data)) :
    substituteGenerators sys (pre ++ ("[[" ++ inner ++ "]]") ++ post) g =
      (p.1 ++ out.1 ++ rest.1, rest.2) ∧
    substitute sys r (pre ++ ("[[" ++ inner ++ "]]") ++ post) g =
      (substituteVariables sys r (p.1 ++ out.1 ++ rest.1), rest.2) ∧
    (settled '\x7b' '\x7d' p.1 = true → settled '\x7b' '\x7d' out.1 = true →
      substitute sys r (pre ++ ("[[" ++ inner ++ "]]") ++ post) g =
        (substituteVariables sys r p.1 ++ substituteVariables sys r out.1
            ++ substituteVariables sys r rest.1, rest.2)) ∧
    (settled '\x7b' '\x7d' p.1 = true → plainText '\x7b' out.1.data = true →
      substitute sys r (pre ++ ("[[" ++ inner ++ "]]") ++ post) g =
        (substituteVariables sys r p.1 ++ out.1 ++ substituteVariables sys r rest.1, rest.2)) := by
  subst hp hout hrest
  have hat := substituteGenerators_at sys pre inner post g hpre hinner
  have hs : substitute sys r (pre ++ ("[[" ++ inner ++ "]]") ++ post) g =
      (substituteVariables sys r
          ((substituteGenerators sys pre g).1 ++
            (substituteGen sys ("[[" ++ inner ++ "]]") (substituteGenerators sys pre g).2).1 ++
            (substituteGenerators sys post
              (substituteGen sys ("[[" ++ inner ++ "]]") (substituteGenerators sys pre g).2).2).1),
        (substituteGenerators sys post
          (substituteGen sys ("[[" ++ inner ++ "]]") (substituteGenerators sys pre g).2).2).2) := by
    simp only [substitute, hat]
  refine ⟨hat, hs, ?_, ?_⟩
  · intro h1 h2
    rw [hs, substituteVariables_three sys r _ _ _ h1 h2]
  · intro h1 h2
    have h3 := settled_of_plainText '\x7b' '\x7d' _ h2
    rw [hs, substituteVariables_three sys r _ _ _ h1 h3, substituteVariables_plain sys r _ h2]

/-- Witness for claim C11 as amended: a generator output after a variable
token, verbatim in the result; and an inserted variable token that nothing
resolves, left as it is by the variable pass. -/
theorem substitute_generator_output_witness :
    substitute sampleSys sampleRunner "http://\x7b\x7bhost\x7d\x7d/u/[[email]]?t=[[tag]]" 0
      = ("http://example.org/u/a@b.c?t=T", 2) ∧
    substitute sampleSys sampleRunner "[[tag]]/[[oneof: \x7b\x7bnosuch\x7d\x7d]]" 0
      = ("T/\x7b\x7bnosuch\x7d\x7d", 2) :=
  ⟨(substitute_generator_output sampleSys sampleRunner "http://\x7b\x7bhost\x7d\x7d/u/" "email"
      "?t=[[tag]]" 0 ("http://\x7b\x7bhost\x7d\x7d/u/", 0) ("a@b.c", 1) ("?t=T", 2)
      (by decide) (by decide) (by decide) (by decide) (by decide)).2.2.2 (by decide) (by decide),
   (substitute_generator_output sampleSys sampleRunner "[[tag]]/" "oneof: \x7b\x7bnosuch\x7d\x7d"
      "" 0 ("T/", 1) ("\x7b\x7bnosuch\x7d\x7d", 2) ("", 2)
      (by decide) (by decide) (by decide) (by decide) (by decide)).2.2.1 (by decide) (by decide)⟩

/-- Claim C12, evaluated where the code departs from it: for every registry,
random source, environment and state, the token `[[oneof:]]` is replaced by the
empty string (after one draw from the random source), not left as it is:
`strings.Split` gives one empty candidate, so the guard on the number of
candidates always holds. -/
theorem substitute_oneof_empty {σ : Type} (sys : Sys σ) (r : Runner) (g : σ) :
    substituteGen sys "[[oneof:]]" g = ("", (sys.Intn 1 g).2) ∧
    substitute sys r "[[oneof:]]" g = ("", (sys.Intn 1 g).2) ∧
    (substitute sys r "[[oneof:]]" g).1 ≠ "[[oneof:]]" := by
  have hg : substituteGenerators sys "[[oneof:]]" g = ("", (sys.Intn 1 g).2) := by
    have h := substituteGenerators_leftmost sys "" "oneof:" "" g (by decide) (by decide)
    have he : ("" : String) ++ ("[[" ++ "oneof:" ++ "]]") ++ "" = "[[oneof:]]" := by decide
    have ht : ("[[" : String) ++ "oneof:" ++ "]]" = "[[oneof:]]" := by decide
    rw [he, ht, substituteGen_oneof_empty] at h
    rw [h]
    rfl
  have hv : substituteVariables sys r "" = "" := rfl
  have hsub : substitute sys r "[[oneof:]]" g = ("", (sys.Intn 1 g).2) := by
    simp only [substitute, hg, hv]
  refine ⟨substituteGen_oneof_empty sys g, hsub, ?_⟩
  rw [hsub]
  exact (by decide : ("" : String) ≠ "[[oneof:]]")

end Hepi
